import Mathlib

/-!
Verification of the correlated-signal kernels in
`sofia_redux/scan/signal/signal_numba_functions.py`.

Arrays are embedded as total functions from indices (`ℕ`, or `ℕ × ℕ` for the
frame × channel grids) to exact rationals `ℚ`; the explicit array sizes that
numpy carries in `shape`/`size` are passed as separate `ℕ` parameters.
Float arithmetic is idealised as exact rational arithmetic; a separate
NaN-aware carrier `FQ` is used for the claims about NaN behaviour.
In-place mutation is embedded by returning the updated function, with
`addAt` / `subAt` / `setAt` playing the role of single-cell array writes.
-/

/-- Single-cell array write `f[k] += v`. -/
def addAt {κ : Type} [DecidableEq κ] (f : κ → ℚ) (k : κ) (v : ℚ) : κ → ℚ :=
  fun j => if j = k then f j + v else f j

/-- Single-cell array write `f[k] -= v`. -/
def subAt {κ : Type} [DecidableEq κ] (f : κ → ℚ) (k : κ) (v : ℚ) : κ → ℚ :=
  fun j => if j = k then f j - v else f j

/-- Single-cell array write `f[k] = v`. -/
def setAt {κ : Type} [DecidableEq κ] (f : κ → ℚ) (k : κ) (v : ℚ) : κ → ℚ :=
  fun j => if j = k then v else f j

/-- Modelled from the spec: the utility `numba_functions.roundup_ratio`
(its module `sofia_redux/scan/utilities/numba_functions.py` is not under
`src/`), specified by the spec as the rounding rule
`n_blocks = ceil(n_frames / resolution)`; rendered on naturals as the usual
integer form `(n + d - 1) / d`. -/
def roundup_ratio (n d : ℕ) : ℕ := (n + d - 1) / d

/-- The prelude `if resolution < 1: resolution = 1` shared by the
block-structured kernels, landing in `ℕ`. -/
def clamp_resolution (resolution : ℤ) : ℕ :=
  (if resolution < 1 then 1 else resolution).toNat

/-- `n_blocks = roundup_ratio(n_frames, resolution)` after clamping, as
computed at the top of each block-structured kernel. -/
def n_blocks_of (n_frames : ℕ) (resolution : ℤ) : ℕ :=
  roundup_ratio n_frames (clamp_resolution resolution)

lemma clamp_resolution_pos (resolution : ℤ) : 0 < clamp_resolution resolution := by
  unfold clamp_resolution
  split
  · simp
  · simp
    omega

lemma clamp_resolution_eq_max (resolution : ℤ) :
    (clamp_resolution resolution : ℤ) = max 1 resolution := by
  unfold clamp_resolution
  split
  · simp
    omega
  · rw [Int.toNat_of_nonneg (by omega)]
    omega

/-- `(n + d - 1) / d` is the ceiling of `n / d`, for positive `d`. -/
lemma roundup_ratio_eq_ceil (n d : ℕ) (hd : 0 < d) :
    ((roundup_ratio n d : ℕ) : ℤ) = ⌈(n : ℚ) / (d : ℚ)⌉ := by
  symm
  rw [Int.ceil_eq_iff]
  have h1 := Nat.div_add_mod (n + d - 1) d
  have hm : roundup_ratio n d = (n + d - 1) / d := rfl
  set m := (n + d - 1) / d with hmdef
  set r := (n + d - 1) % d with hr
  have h2 : r < d := Nat.mod_lt _ hd
  have ha : d * m < n + d := by omega
  have hb : n ≤ d * m := by omega
  have hdq : (0 : ℚ) < (d : ℚ) := by exact_mod_cast hd
  rw [hm]
  constructor
  · rw [lt_div_iff₀ hdq]
    have : (d : ℚ) * m < n + d := by exact_mod_cast ha
    push_cast
    linarith
  · rw [div_le_iff₀ hdq]
    have : (n : ℚ) ≤ d * m := by exact_mod_cast hb
    push_cast
    linarith

lemma roundup_ratio_le (n d : ℕ) (hd : 0 < d) : n ≤ d * roundup_ratio n d := by
  have h1 := Nat.div_add_mod (n + d - 1) d
  have h2 : (n + d - 1) % d < d := Nat.mod_lt _ hd
  unfold roundup_ratio
  omega

lemma roundup_ratio_lt (n d : ℕ) (hd : 0 < d) : d * roundup_ratio n d < n + d := by
  have h1 := Nat.div_add_mod (n + d - 1) d
  have h2 : (n + d - 1) % d < d := Nat.mod_lt _ hd
  unfold roundup_ratio
  omega

lemma roundup_ratio_mul_eq_iff (n d : ℕ) (hd : 0 < d) :
    d * roundup_ratio n d = n ↔ d ∣ n := by
  constructor
  · intro h
    exact ⟨_, h.symm⟩
  · rintro ⟨k, rfl⟩
    have h1 := roundup_ratio_le (d * k) d hd
    have h2 := roundup_ratio_lt (d * k) d hd
    have h3 : k ≤ roundup_ratio (d * k) d := Nat.le_of_mul_le_mul_left h1 hd
    have h4 : roundup_ratio (d * k) d < k + 1 := by
      have h5 : d * roundup_ratio (d * k) d < d * (k + 1) := by
        have : d * (k + 1) = d * k + d := by ring
        omega
      exact Nat.lt_of_mul_lt_mul_left h5
    have : roundup_ratio (d * k) d = k := by omega
    rw [this]

/-- Claim C4: every block-structured kernel computes
`n_blocks = ceil(n_frames / resolution)` with the resolution silently clamped
to at least 1 (so `resolution < 1` is treated as 1 rather than rejected);
in particular 10 frames at resolution 3 give 4 blocks. -/
theorem c4_n_blocks_ceil :
    (∀ (n_frames : ℕ) (resolution : ℤ),
      (n_blocks_of n_frames resolution : ℤ)
        = ⌈(n_frames : ℚ) / ((max 1 resolution : ℤ) : ℚ)⌉)
    ∧ n_blocks_of 10 3 = 4 := by
  constructor
  · intro n resolution
    have h := roundup_ratio_eq_ceil n (clamp_resolution resolution)
      (clamp_resolution_pos resolution)
    unfold n_blocks_of
    rw [h]
    congr 2
    have := clamp_resolution_eq_max resolution
    exact_mod_cast this
  · rfl

/-! ### Generic lemmas about the fold-based embedding of loops -/

lemma foldl_scalar_add {α : Type} (step : ℚ → α → ℚ) (ε : α → ℚ)
    (h : ∀ s a, step s a = s + ε a) :
    ∀ (l : List α) (s : ℚ), l.foldl step s = s + (l.map ε).sum := by
  intro l
  induction l with
  | nil => simp
  | cons a t ih =>
      intro s
      simp only [List.foldl_cons, List.map_cons, List.sum_cons, h]
      rw [ih]
      ring

lemma foldl_point_add {α κ : Type} (step : (κ → ℚ) → α → (κ → ℚ)) (x : κ)
    (ε : α → ℚ) (h : ∀ d a, step d a x = d x + ε a) :
    ∀ (l : List α) (d : κ → ℚ), (l.foldl step d) x = d x + (l.map ε).sum := by
  intro l
  induction l with
  | nil => simp
  | cons a t ih =>
      intro d
      simp only [List.foldl_cons, List.map_cons, List.sum_cons]
      rw [ih, h]
      ring

lemma foldl_proj {σ τ α : Type} (proj : σ → τ) (step : σ → α → σ)
    (pstep : τ → α → τ) (h : ∀ s a, proj (step s a) = pstep (proj s) a) :
    ∀ (l : List α) (s : σ), proj (l.foldl step s) = l.foldl pstep (proj s) := by
  intro l
  induction l with
  | nil => simp
  | cons a t ih =>
      intro s
      simp only [List.foldl_cons]
      rw [ih, h]

lemma block_of_mem_range' {r b f : ℕ} (hr : 0 < r)
    (h1 : b * r ≤ f) (h2 : f < b * r + r) : f / r = b := by
  have h3 : f = (f - b * r) + b * r := by omega
  rw [h3, Nat.add_mul_div_right _ _ hr, Nat.div_eq_of_lt (by omega)]
  omega

lemma getD_map_range {α : Type} (f : ℕ → α) {n b : ℕ} (hb : b < n) (d : α) :
    ((List.range n).map f).getD b d = f b := by
  rw [List.getD_eq_getElem?_getD]
  simp [List.getElem?_map, List.getElem?_range, hb]

/-! ### `get_ml_correlated` (source lines 62-137) -/

/-- The per-block accumulation loop of `get_ml_correlated`: starting from
`(sum_wv, sum_w) = (0, 0)`, runs over `frame_index` in
`range(block * resolution, block * resolution + resolution)`, skipping
invalid frames and frames with `fw == 0`, and for each unflagged sample adds
`fw * channel_wg[i] * frame_data[frame_index, channel_index]` to `sum_wv`
and `fw * channel_wg2[i]` to `sum_w`. -/
def ml_block_sums (frame_data : ℕ × ℕ → ℚ) (frame_weights : ℕ → ℚ)
    (frame_valid : ℕ → Bool) (channel_indices : List ℕ)
    (channel_wg channel_wg2 : ℕ → ℚ) (sample_flags : ℕ × ℕ → ℤ)
    (r block : ℕ) : ℚ × ℚ :=
  (List.range' (block * r) r).foldl
    (fun acc frame_index =>
      if frame_valid frame_index then
        let fw := frame_weights frame_index
        if fw = 0 then acc
        else
          channel_indices.enum.foldl
            (fun acc2 p =>
              if sample_flags (frame_index, p.2) ≠ 0 then acc2
              else
                (acc2.1 + fw * channel_wg p.1 * frame_data (frame_index, p.2),
                 acc2.2 + fw * channel_wg2 p.1))
            acc
      else acc)
    (0, 0)

/-- `get_ml_correlated`: derive the maximum-likelihood gain increments and
weights, block by block.  Returns the pair of arrays
`(gain_increments, gain_increment_weights)`, each of length `n_blocks`;
a block with zero accumulated denominator yields `(0, 0)`, otherwise
`(sum_wv / sum_w, sum_w)`. -/
def get_ml_correlated (n_frames : ℕ) (frame_data : ℕ × ℕ → ℚ)
    (frame_weights : ℕ → ℚ) (frame_valid : ℕ → Bool)
    (channel_indices : List ℕ) (channel_wg channel_wg2 : ℕ → ℚ)
    (sample_flags : ℕ × ℕ → ℤ) (resolution : ℤ) : List ℚ × List ℚ :=
  let r := clamp_resolution resolution
  let n_blocks := roundup_ratio n_frames r
  let block_value : ℕ → ℚ × ℚ := fun block =>
    let s := ml_block_sums frame_data frame_weights frame_valid
      channel_indices channel_wg channel_wg2 sample_flags r block
    if s.2 = 0 then (0, 0) else (s.1 / s.2, s.2)
  ((List.range n_blocks).map fun b => (block_value b).1,
   (List.range n_blocks).map fun b => (block_value b).2)

/-- The numerator the claim describes: `Σ(fw · cw · x)` over exactly the
samples of the block whose frame is valid with nonzero frame weight and whose
sample flag is zero. -/
def ml_block_num_spec (frame_data : ℕ × ℕ → ℚ) (frame_weights : ℕ → ℚ)
    (frame_valid : ℕ → Bool) (channel_indices : List ℕ)
    (channel_wg : ℕ → ℚ) (sample_flags : ℕ × ℕ → ℤ) (r block : ℕ) : ℚ :=
  ((List.range' (block * r) r).map fun f =>
    if frame_valid f = true ∧ frame_weights f ≠ 0 then
      (channel_indices.enum.map fun p =>
        if sample_flags (f, p.2) = 0 then
          frame_weights f * channel_wg p.1 * frame_data (f, p.2)
        else 0).sum
    else 0).sum

/-- The denominator the claim describes: `Σ(fw · cw²)` over exactly the
samples of the block whose frame is valid with nonzero frame weight and whose
sample flag is zero. -/
def ml_block_den_spec (frame_weights : ℕ → ℚ) (frame_valid : ℕ → Bool)
    (channel_indices : List ℕ) (channel_wg2 : ℕ → ℚ)
    (sample_flags : ℕ × ℕ → ℤ) (r block : ℕ) : ℚ :=
  ((List.range' (block * r) r).map fun f =>
    if frame_valid f = true ∧ frame_weights f ≠ 0 then
      (channel_indices.enum.map fun p =>
        if sample_flags (f, p.2) = 0 then frame_weights f * channel_wg2 p.1
        else 0).sum
    else 0).sum

lemma ml_chan_fold (fw : ℚ) (f : ℕ) (frame_data : ℕ × ℕ → ℚ)
    (channel_wg channel_wg2 : ℕ → ℚ) (sample_flags : ℕ × ℕ → ℤ) :
    ∀ (l : List (ℕ × ℕ)) (acc : ℚ × ℚ),
      l.foldl
        (fun acc2 p =>
          if sample_flags (f, p.2) ≠ 0 then acc2
          else
            (acc2.1 + fw * channel_wg p.1 * frame_data (f, p.2),
             acc2.2 + fw * channel_wg2 p.1))
        acc
      = (acc.1 + (l.map fun p =>
            if sample_flags (f, p.2) = 0 then
              fw * channel_wg p.1 * frame_data (f, p.2) else 0).sum,
         acc.2 + (l.map fun p =>
            if sample_flags (f, p.2) = 0 then fw * channel_wg2 p.1 else 0).sum) := by
  intro l
  induction l with
  | nil => simp
  | cons p t ih =>
      intro acc
      by_cases hp : sample_flags (f, p.2) = 0
      · simp only [List.foldl_cons, List.map_cons, List.sum_cons, hp, if_pos,
          ne_eq, not_true_eq_false, if_false, ite_true, not_not]
        rw [ih]
        simp [hp]
        constructor <;> ring
      · simp only [List.foldl_cons, List.map_cons, List.sum_cons, ne_eq, hp,
          not_false_eq_true, if_true, ite_false]
        rw [ih]
        simp [hp]

lemma ml_block_sums_eq (frame_data : ℕ × ℕ → ℚ) (frame_weights : ℕ → ℚ)
    (frame_valid : ℕ → Bool) (channel_indices : List ℕ)
    (channel_wg channel_wg2 : ℕ → ℚ) (sample_flags : ℕ × ℕ → ℤ) (r block : ℕ) :
    ml_block_sums frame_data frame_weights frame_valid channel_indices
      channel_wg channel_wg2 sample_flags r block
    = (ml_block_num_spec frame_data frame_weights frame_valid channel_indices
         channel_wg sample_flags r block,
       ml_block_den_spec frame_weights frame_valid channel_indices
         channel_wg2 sample_flags r block) := by
  unfold ml_block_sums ml_block_num_spec ml_block_den_spec
  suffices h : ∀ (l : List ℕ) (acc : ℚ × ℚ),
      l.foldl
        (fun acc frame_index =>
          if frame_valid frame_index then
            let fw := frame_weights frame_index
            if fw = 0 then acc
            else
              channel_indices.enum.foldl
                (fun acc2 p =>
                  if sample_flags (frame_index, p.2) ≠ 0 then acc2
                  else
                    (acc2.1 + fw * channel_wg p.1 * frame_data (frame_index, p.2),
                     acc2.2 + fw * channel_wg2 p.1))
                acc
          else acc)
        acc
      = (acc.1 + (l.map fun f =>
            if frame_valid f = true ∧ frame_weights f ≠ 0 then
              (channel_indices.enum.map fun p =>
                if sample_flags (f, p.2) = 0 then
                  frame_weights f * channel_wg p.1 * frame_data (f, p.2)
                else 0).sum
            else 0).sum,
         acc.2 + (l.map fun f =>
            if frame_valid f = true ∧ frame_weights f ≠ 0 then
              (channel_indices.enum.map fun p =>
                if sample_flags (f, p.2) = 0 then
                  frame_weights f * channel_wg2 p.1
                else 0).sum
            else 0).sum) by
    rw [h]
    simp
  intro l
  induction l with
  | nil => simp
  | cons f t ih =>
      intro acc
      simp only [List.foldl_cons, List.map_cons, List.sum_cons]
      by_cases hv : frame_valid f
      · by_cases hw : frame_weights f = 0
        · simp only [hv, if_true, hw, ite_true]
          rw [ih]
          simp [hv, hw]
        · simp only [hv, if_true, hw, ite_false]
          rw [ml_chan_fold, ih]
          simp only [hv, hw, ne_eq, not_false_eq_true, and_self, true_and,
            if_true, ite_true]
          simp only [Prod.mk.injEq]
          constructor <;> ring
      · simp only [hv, if_false, Bool.false_eq_true, false_and, ite_false]
        rw [ih]
        simp only [Prod.mk.injEq]
        constructor <;> ring

/-- Claim C1: per block, `get_ml_correlated` accumulates `sum(fw·cw·x)` and
`sum(fw·cw²)` over exactly the samples whose frame is valid with nonzero
frame weight and whose sample flag is zero, returns block value = ratio and
block weight = denominator, and returns `(0, 0)` for every block whose
accumulated denominator is zero. -/
theorem c1_get_ml_correlated_blocks (n_frames : ℕ) (frame_data : ℕ × ℕ → ℚ)
    (frame_weights : ℕ → ℚ) (frame_valid : ℕ → Bool)
    (channel_indices : List ℕ) (channel_wg channel_wg2 : ℕ → ℚ)
    (sample_flags : ℕ × ℕ → ℤ) (resolution : ℤ) (block : ℕ)
    (hb : block < n_blocks_of n_frames resolution) :
    (get_ml_correlated n_frames frame_data frame_weights frame_valid
        channel_indices channel_wg channel_wg2 sample_flags resolution).1.length
      = n_blocks_of n_frames resolution
    ∧ (get_ml_correlated n_frames frame_data frame_weights frame_valid
        channel_indices channel_wg channel_wg2 sample_flags resolution).2.length
      = n_blocks_of n_frames resolution
    ∧ (get_ml_correlated n_frames frame_data frame_weights frame_valid
        channel_indices channel_wg channel_wg2 sample_flags resolution).1.getD block 0
      = (if ml_block_den_spec frame_weights frame_valid channel_indices
            channel_wg2 sample_flags (clamp_resolution resolution) block = 0
         then 0
         else ml_block_num_spec frame_data frame_weights frame_valid
            channel_indices channel_wg sample_flags
            (clamp_resolution resolution) block
          / ml_block_den_spec frame_weights frame_valid channel_indices
            channel_wg2 sample_flags (clamp_resolution resolution) block)
    ∧ (get_ml_correlated n_frames frame_data frame_weights frame_valid
        channel_indices channel_wg channel_wg2 sample_flags resolution).2.getD block 0
      = (if ml_block_den_spec frame_weights frame_valid channel_indices
            channel_wg2 sample_flags (clamp_resolution resolution) block = 0
         then 0
         else ml_block_den_spec frame_weights frame_valid channel_indices
            channel_wg2 sample_flags (clamp_resolution resolution) block) := by
  have hb' : block < roundup_ratio n_frames (clamp_resolution resolution) := hb
  refine ⟨by simp [get_ml_correlated, n_blocks_of],
    by simp [get_ml_correlated, n_blocks_of], ?_, ?_⟩
  · unfold get_ml_correlated
    rw [getD_map_range _ hb']
    simp only [ml_block_sums_eq]
    split_ifs <;> rfl
  · unfold get_ml_correlated
    rw [getD_map_range _ hb']
    simp only [ml_block_sums_eq]
    split_ifs <;> rfl

theorem c1_witness :
    (get_ml_correlated 2 (fun p => (p.1 : ℚ) + 1) (fun _ => 1) (fun _ => true)
      [0] (fun _ => 1) (fun _ => 1) (fun _ => 0) 1).1.getD 1 0 = 2 := by
  have h := c1_get_ml_correlated_blocks 2 (fun p => (p.1 : ℚ) + 1) (fun _ => 1)
    (fun _ => true) [0] (fun _ => 1) (fun _ => 1) (fun _ => 0) 1 1 (by decide)
  rw [h.2.2.1]
  have hc : clamp_resolution 1 = 1 := by decide
  have hr : List.range' 1 1 = [1] := by decide
  norm_num [ml_block_den_spec, ml_block_num_spec, hc, hr, List.enum, List.enumFrom]

lemma sum_map_zero {α : Type} (l : List α) : (l.map fun _ => (0 : ℚ)).sum = 0 := by
  induction l with
  | nil => simp
  | cons a t ih => simp [ih]

lemma sum_map_single {α : Type} [DecidableEq α] (l : List α) (hl : l.Nodup)
    (x : α) (g : α → ℚ) :
    (l.map fun a => if x = a then g a else 0).sum = if x ∈ l then g x else 0 := by
  induction l with
  | nil => simp
  | cons a t ih =>
      simp only [List.nodup_cons] at hl
      by_cases hx : x = a
      · subst hx
        simp [hl.1, ih hl.2]
      · simp only [List.map_cons, List.sum_cons, hx, if_false, ite_false,
          List.mem_cons]
        rw [ih hl.2]
        simp [hx]

lemma range_single_sum (n b0 : ℕ) (g : ℕ → ℚ) :
    ((List.range n).map fun b => if b0 = b then g b else 0).sum
      = if b0 < n then g b0 else 0 := by
  rw [sum_map_single _ (List.nodup_range n) b0 g]
  simp

/-- Summing a per-block indicator over all blocks collapses to the block
containing `f`. -/
lemma range_block_sum_collapse (n_signal r f : ℕ) (hr : 0 < r) (g : ℕ → ℚ) :
    ((List.range n_signal).map fun b =>
        if b * r ≤ f ∧ f < b * r + r then g b else 0).sum
      = if f < n_signal * r then g (f / r) else 0 := by
  induction n_signal with
  | zero => simp
  | succ n ih =>
      rw [List.range_succ, List.map_append, List.sum_append, ih]
      simp only [List.map_cons, List.map_nil, List.sum_cons, List.sum_nil]
      by_cases h1 : f < n * r
      · have h2 : ¬ (n * r ≤ f ∧ f < n * r + r) := by omega
        have h3 : f < (n + 1) * r := by
          have : n * r ≤ (n + 1) * r := by nlinarith
          omega
        simp [h2, h1, h3]
      · by_cases h4 : f < (n + 1) * r
        · have h5 : n * r ≤ f ∧ f < n * r + r := by
            constructor
            · omega
            · have : (n + 1) * r = n * r + r := by ring
              omega
          have h6 : f / r = n := block_of_mem_range' hr h5.1 h5.2
          simp [h1, h4, h5, h6]
        · have h5 : ¬ (n * r ≤ f ∧ f < n * r + r) := by
            intro hcon
            have : (n + 1) * r = n * r + r := by ring
            omega
          simp [h1, h4, h5]

lemma foldl_range_setAt (P : ℕ → Prop) [DecidablePred P] (v : ℕ → ℚ)
    (n b0 : ℕ) (s0 : ℕ → ℚ) :
    (((List.range n).foldl (fun s b => if P b then setAt s b (v b) else s) s0)) b0
      = if b0 < n ∧ P b0 then v b0 else s0 b0 := by
  induction n with
  | zero => simp
  | succ n ih =>
      rw [List.range_succ, List.foldl_append]
      simp only [List.foldl_cons, List.foldl_nil]
      by_cases hp : P n
      · by_cases hb : b0 = n
        · subst hb
          simp [hp, setAt]
        · simp only [hp, if_true, setAt, hb, ite_false]
          rw [ih]
          by_cases h1 : b0 < n
          · have : b0 < n + 1 := by omega
            simp [h1, this]
          · have : ¬ b0 < n + 1 := by omega
            simp [h1, this]
      · rw [if_neg hp, ih]
        by_cases hb : b0 = n
        · subst hb
          simp [hp]
        · have : (b0 < n ∧ P b0) ↔ (b0 < n + 1 ∧ P b0) := by
            constructor
            · rintro ⟨h1, h2⟩
              exact ⟨by omega, h2⟩
            · rintro ⟨h1, h2⟩
              exact ⟨by omega, h2⟩
          rw [if_congr this rfl rfl]

lemma sum_map_neg {α : Type} (l : List α) (g : α → ℚ) :
    (l.map fun a => -(g a)).sum = -((l.map g).sum) := by
  induction l with
  | nil => simp
  | cons a t ih => simp [ih]; ring

lemma ite_ite_zero (A B : Prop) [Decidable A] [Decidable B] (x : ℚ) :
    (if A then (if B then x else 0) else 0) = if A ∧ B then x else 0 := by
  by_cases hA : A <;> by_cases hB : B <;> simp [hA, hB]

/-! ### `resync_gains` (source lines 233-283) -/

/-- The body of the per-frame loop of `resync_gains`: for a valid frame,
`frame_data[frame, channel] -= delta_gains[i] * c` for every channel in the
mode, skipping zero gain deltas. -/
def resync_frame_step (delta_gains : ℕ → ℚ) (channel_indices : List ℕ)
    (frame_valid : ℕ → Bool) (c : ℚ) (data : ℕ × ℕ → ℚ) (frame : ℕ) :
    ℕ × ℕ → ℚ :=
  if frame_valid frame then
    channel_indices.enum.foldl
      (fun data p =>
        let dg := delta_gains p.1
        if dg = 0 then data
        else subAt data (frame, p.2) (dg * c))
      data
  else data

/-- The body of the per-block loop of `resync_gains`: blocks whose signal
value `c` is zero are skipped, otherwise the per-frame loop runs over
`range(start_frame, end_frame)`. -/
def resync_block_step (signal_values : ℕ → ℚ) (r : ℕ) (delta_gains : ℕ → ℚ)
    (channel_indices : List ℕ) (frame_valid : ℕ → Bool)
    (data : ℕ × ℕ → ℚ) (signal_index : ℕ) : ℕ × ℕ → ℚ :=
  let c := signal_values signal_index
  if c = 0 then data
  else
    (List.range' (signal_index * r) r).foldl
      (resync_frame_step delta_gains channel_indices frame_valid c) data

/-- `resync_gains`: removes the previous gain increment correction from the
frame data in place; every valid frame of every block with nonzero signal
value is decremented by `signal[frame_index // resolution] * delta_gain`. -/
def resync_gains (n_frames : ℕ) (frame_data : ℕ × ℕ → ℚ)
    (signal_values : ℕ → ℚ) (resolution : ℤ) (delta_gains : ℕ → ℚ)
    (channel_indices : List ℕ) (frame_valid : ℕ → Bool) : ℕ × ℕ → ℚ :=
  let r := clamp_resolution resolution
  let n_signal := roundup_ratio n_frames r
  (List.range n_signal).foldl
    (resync_block_step signal_values r delta_gains channel_indices frame_valid)
    frame_data

lemma resync_chan_fold (delta_gains : ℕ → ℚ) (c : ℚ) (frame f0 c0 : ℕ) :
    ∀ (l : List (ℕ × ℕ)) (data : ℕ × ℕ → ℚ),
      (l.foldl
        (fun data p =>
          let dg := delta_gains p.1
          if dg = 0 then data else subAt data (frame, p.2) (dg * c))
        data) (f0, c0)
      = data (f0, c0)
        - (if f0 = frame then
            (l.map fun p => if p.2 = c0 then delta_gains p.1 * c else 0).sum
           else 0) := by
  intro l data
  rw [foldl_point_add _ ((f0, c0))
    (fun p => -(if f0 = frame ∧ p.2 = c0 then delta_gains p.1 * c else 0))]
  · rw [sum_map_neg]
    by_cases hf : f0 = frame
    · simp only [hf, true_and, if_true, sub_eq_add_neg]
    · simp [hf]
  · intro d p
    by_cases hdg : delta_gains p.1 = 0
    · simp [hdg]
    · simp only [hdg, ite_false, subAt]
      by_cases hk : (f0, c0) = (frame, p.2)
      · have h1 : f0 = frame := congrArg Prod.fst hk
        have h2 : p.2 = c0 := (congrArg Prod.snd hk).symm
        simp [hk, h1, h2]
        ring
      · have h2 : ¬ (f0 = frame ∧ p.2 = c0) := by
          intro hcon
          exact hk (by
            have := hcon.1
            have := hcon.2
            subst this
            rw [hcon.1])
        simp [hk, h2]

lemma resync_frame_step_point (delta_gains : ℕ → ℚ) (channel_indices : List ℕ)
    (frame_valid : ℕ → Bool) (c : ℚ) (data : ℕ × ℕ → ℚ) (frame f0 c0 : ℕ) :
    (resync_frame_step delta_gains channel_indices frame_valid c data frame) (f0, c0)
      = data (f0, c0)
        - (if f0 = frame ∧ frame_valid frame = true then
            (channel_indices.enum.map fun p =>
              if p.2 = c0 then delta_gains p.1 * c else 0).sum
           else 0) := by
  unfold resync_frame_step
  by_cases hv : frame_valid frame
  · simp only [hv, if_true]
    rw [resync_chan_fold]
    simp [hv]
  · simp [hv]

lemma resync_frame_fold_point (delta_gains : ℕ → ℚ) (channel_indices : List ℕ)
    (frame_valid : ℕ → Bool) (c : ℚ) (f0 c0 : ℕ) (l : List ℕ) (hl : l.Nodup)
    (data : ℕ × ℕ → ℚ) :
    (l.foldl (resync_frame_step delta_gains channel_indices frame_valid c) data) (f0, c0)
      = data (f0, c0)
        - (if f0 ∈ l ∧ frame_valid f0 = true then
            (channel_indices.enum.map fun p =>
              if p.2 = c0 then delta_gains p.1 * c else 0).sum
           else 0) := by
  rw [foldl_point_add _ ((f0, c0))
    (fun frame => -(if f0 = frame ∧ frame_valid frame = true then
      (channel_indices.enum.map fun p =>
        if p.2 = c0 then delta_gains p.1 * c else 0).sum else 0))]
  · rw [sum_map_neg]
    have h1 : ∀ frame : ℕ,
        (if f0 = frame ∧ frame_valid frame = true then
          (channel_indices.enum.map fun p =>
            if p.2 = c0 then delta_gains p.1 * c else 0).sum else 0)
        = (if f0 = frame then
            (if frame_valid frame = true then
              (channel_indices.enum.map fun p =>
                if p.2 = c0 then delta_gains p.1 * c else 0).sum else 0)
           else 0) := by
      intro frame
      rw [ite_ite_zero]
    rw [List.map_congr_left fun frame _ => h1 frame]
    rw [sum_map_single l hl f0]
    by_cases hm : f0 ∈ l
    · simp only [hm, if_true, true_and]
      ring
    · simp [hm]
  · intro d frame
    rw [resync_frame_step_point]
    ring

lemma resync_block_step_point (signal_values : ℕ → ℚ) (r : ℕ)
    (delta_gains : ℕ → ℚ) (channel_indices : List ℕ) (frame_valid : ℕ → Bool)
    (data : ℕ × ℕ → ℚ) (b f0 c0 : ℕ) :
    resync_block_step signal_values r delta_gains channel_indices frame_valid
      data b (f0, c0)
      = data (f0, c0)
        - (if (b * r ≤ f0 ∧ f0 < b * r + r) ∧ frame_valid f0 = true then
            (channel_indices.enum.map fun p =>
              if p.2 = c0 then delta_gains p.1 * signal_values b else 0).sum
           else 0) := by
  unfold resync_block_step
  by_cases hc : signal_values b = 0
  · simp only [hc, ite_true]
    have hz : (channel_indices.enum.map fun p =>
        if p.2 = c0 then delta_gains p.1 * (0 : ℚ) else 0).sum = 0 := by
      simp only [mul_zero, ite_self]
      exact sum_map_zero _
    rw [hz]
    simp
  · simp only [hc, ite_false]
    rw [resync_frame_fold_point _ _ _ _ _ _ _ (List.nodup_range' _ _)]
    simp only [List.mem_range'_1]

lemma resync_gains_point (n_frames : ℕ) (frame_data : ℕ × ℕ → ℚ)
    (signal_values : ℕ → ℚ) (resolution : ℤ) (delta_gains : ℕ → ℚ)
    (channel_indices : List ℕ) (frame_valid : ℕ → Bool) (f0 c0 : ℕ) :
    resync_gains n_frames frame_data signal_values resolution delta_gains
      channel_indices frame_valid (f0, c0)
      = frame_data (f0, c0)
        - (if f0 < roundup_ratio n_frames (clamp_resolution resolution)
              * clamp_resolution resolution ∧ frame_valid f0 = true then
            (channel_indices.enum.map fun p =>
              if p.2 = c0 then
                delta_gains p.1
                  * signal_values (f0 / clamp_resolution resolution)
              else 0).sum
           else 0) := by
  unfold resync_gains
  set r := clamp_resolution resolution with hrdef
  have hr : 0 < r := clamp_resolution_pos resolution
  set n_signal := roundup_ratio n_frames r with hnsig
  rw [foldl_point_add
    (resync_block_step signal_values r delta_gains channel_indices frame_valid)
    ((f0, c0))
    (fun b => -(if (b * r ≤ f0 ∧ f0 < b * r + r) ∧ frame_valid f0 = true then
      (channel_indices.enum.map fun p =>
        if p.2 = c0 then delta_gains p.1 * signal_values b else 0).sum
      else 0))
    (by
      intro d b
      rw [resync_block_step_point]
      ring)]
  rw [sum_map_neg]
  by_cases hv : frame_valid f0
  · have h1 : ∀ b : ℕ,
        (if (b * r ≤ f0 ∧ f0 < b * r + r) ∧ frame_valid f0 = true then
          (channel_indices.enum.map fun p =>
            if p.2 = c0 then delta_gains p.1 * signal_values b else 0).sum
         else 0)
        = (if b * r ≤ f0 ∧ f0 < b * r + r then
            (channel_indices.enum.map fun p =>
              if p.2 = c0 then delta_gains p.1 * signal_values b else 0).sum
           else 0) := by
      intro b
      simp [hv]
    rw [List.map_congr_left fun b _ => h1 b]
    rw [range_block_sum_collapse _ _ _ hr]
    simp [hv]
    ring
  · have h1 : ∀ b : ℕ,
        (if (b * r ≤ f0 ∧ f0 < b * r + r) ∧ frame_valid f0 = true then
          (channel_indices.enum.map fun p =>
            if p.2 = c0 then delta_gains p.1 * signal_values b else 0).sum
         else 0) = 0 := by
      intro b
      simp [hv]
    rw [List.map_congr_left fun b _ => h1 b]
    simp [hv, sum_map_zero]

/-! ### `apply_gain_increments` (source lines 286-387) -/

/-- The five arrays `apply_gain_increments` updates in place. -/
structure ApplyState where
  frame_data : ℕ × ℕ → ℚ
  frame_dependents : ℕ → ℚ
  channel_dependents : ℕ → ℚ
  signal_values : ℕ → ℚ
  signal_weights : ℕ → ℚ

/-- One step of the first channel loop of `apply_gain_increments`:
`frame_data[frame, channel] -= channel_g[i] * dc`. -/
def apply_data_step (dc : ℚ) (channel_g : ℕ → ℚ) (frame : ℕ)
    (d : ℕ × ℕ → ℚ) (p : ℕ × ℕ) : ℕ × ℕ → ℚ :=
  subAt d (frame, p.2) (channel_g p.1 * dc)

/-- One step of the dependents channel loop of `apply_gain_increments`:
skips flagged samples and zero `channel_fwg2`, otherwise adds
`dp = fp_norm * fwg2` to the frame dependents (at `frame`) and to the
channel dependents (at `channel`). -/
def apply_dep_step (fp_norm : ℚ) (channel_fwg2 : ℕ → ℚ)
    (sample_flags : ℕ × ℕ → ℤ) (frame : ℕ)
    (q : (ℕ → ℚ) × (ℕ → ℚ)) (p : ℕ × ℕ) : (ℕ → ℚ) × (ℕ → ℚ) :=
  if sample_flags (frame, p.2) ≠ 0 then q
  else
    let fwg2 := channel_fwg2 p.1
    if fwg2 = 0 then q
    else (addAt q.1 frame (fp_norm * fwg2), addAt q.2 p.2 (fp_norm * fwg2))

/-- The body of the per-frame loop of `apply_gain_increments`: invalid frames
are skipped entirely; valid frames always get the frame-data update; the
dependents update additionally requires a non-modeling frame and nonzero
`fp_norm = frame_weight[frame] / dw`. -/
def apply_frame_step (frame_weight : ℕ → ℚ)
    (frame_valid modeling_frames : ℕ → Bool)
    (channel_g channel_fwg2 : ℕ → ℚ) (channel_indices : List ℕ)
    (sample_flags : ℕ × ℕ → ℤ) (dc dw : ℚ)
    (st : ApplyState) (frame : ℕ) : ApplyState :=
  if frame_valid frame then
    let st3 : ApplyState :=
      { st with frame_data :=
          (channel_indices.enum.foldl (apply_data_step dc channel_g frame)
            st.frame_data) }
    if modeling_frames frame then st3
    else
      let fp_norm := frame_weight frame / dw
      if fp_norm = 0 then st3
      else
        let dep2 := channel_indices.enum.foldl
          (apply_dep_step fp_norm channel_fwg2 sample_flags frame)
          (st3.frame_dependents, st3.channel_dependents)
        { st3 with frame_dependents := dep2.1, channel_dependents := dep2.2 }
  else st

/-- The body of the per-block loop of `apply_gain_increments`: blocks with
`dw <= 0` are skipped entirely; otherwise the frame loop runs and then the
block's signal value is incremented by `dc` and its signal weight set to
`dw`. -/
def apply_block_step (frame_weight : ℕ → ℚ)
    (frame_valid modeling_frames : ℕ → Bool)
    (channel_g channel_fwg2 : ℕ → ℚ) (channel_indices : List ℕ)
    (sample_flags : ℕ × ℕ → ℤ) (r : ℕ) (increment increment_weight : ℕ → ℚ)
    (st : ApplyState) (signal_index : ℕ) : ApplyState :=
  let dw := increment_weight signal_index
  if dw ≤ 0 then st
  else
    let dc := increment signal_index
    let st2 := (List.range' (signal_index * r) r).foldl
      (apply_frame_step frame_weight frame_valid modeling_frames channel_g
        channel_fwg2 channel_indices sample_flags dc dw) st
    { st2 with
        signal_values := addAt st2.signal_values signal_index dc,
        signal_weights := setAt st2.signal_weights signal_index dw }

/-- `apply_gain_increments`: apply the gain increments to the frame data,
dependents and signals, block by block. -/
def apply_gain_increments (n_frames : ℕ) (frame_data : ℕ × ℕ → ℚ)
    (frame_weight : ℕ → ℚ) (frame_valid modeling_frames : ℕ → Bool)
    (frame_dependents : ℕ → ℚ) (channel_g channel_fwg2 : ℕ → ℚ)
    (channel_indices : List ℕ) (channel_dependents : ℕ → ℚ)
    (sample_flags : ℕ × ℕ → ℤ) (signal_values signal_weights : ℕ → ℚ)
    (resolution : ℤ) (increment increment_weight : ℕ → ℚ) : ApplyState :=
  let r := clamp_resolution resolution
  let n_signal := roundup_ratio n_frames r
  (List.range n_signal).foldl
    (apply_block_step frame_weight frame_valid modeling_frames channel_g
      channel_fwg2 channel_indices sample_flags r increment increment_weight)
    ⟨frame_data, frame_dependents, channel_dependents, signal_values,
      signal_weights⟩

lemma foldl_id {α σ : Type} (l : List α) (s : σ) :
    l.foldl (fun s _ => s) s = s := by
  induction l with
  | nil => rfl
  | cons a t ih => simpa using ih

lemma apply_data_fold (dc : ℚ) (channel_g : ℕ → ℚ) (frame f0 c0 : ℕ) :
    ∀ (l : List (ℕ × ℕ)) (d : ℕ × ℕ → ℚ),
      (l.foldl (apply_data_step dc channel_g frame) d) (f0, c0)
        = d (f0, c0)
          - (if f0 = frame then
              (l.map fun p => if p.2 = c0 then channel_g p.1 * dc else 0).sum
             else 0) := by
  intro l d
  rw [foldl_point_add (apply_data_step dc channel_g frame) ((f0, c0))
    (fun p => -(if f0 = frame ∧ p.2 = c0 then channel_g p.1 * dc else 0))]
  · rw [sum_map_neg]
    by_cases hf : f0 = frame
    · simp only [hf, true_and, if_true, sub_eq_add_neg]
    · simp [hf]
  · intro d p
    unfold apply_data_step subAt
    by_cases hk : (f0, c0) = (frame, p.2)
    · have h1 : f0 = frame := congrArg Prod.fst hk
      have h2 : p.2 = c0 := (congrArg Prod.snd hk).symm
      simp [hk, h1, h2]
      ring
    · have h2 : ¬ (f0 = frame ∧ p.2 = c0) := by
        intro hcon
        exact hk (by
          have hs := hcon.2
          subst hs
          rw [hcon.1])
      simp [hk, h2]

lemma apply_dep_fold_fst (fp_norm : ℚ) (channel_fwg2 : ℕ → ℚ)
    (sample_flags : ℕ × ℕ → ℤ) (frame j : ℕ) :
    ∀ (l : List (ℕ × ℕ)) (q : (ℕ → ℚ) × (ℕ → ℚ)),
      (l.foldl (apply_dep_step fp_norm channel_fwg2 sample_flags frame) q).1 j
        = q.1 j
          + (if j = frame then
              (l.map fun p =>
                if sample_flags (frame, p.2) = 0 then
                  fp_norm * channel_fwg2 p.1
                else 0).sum
             else 0) := by
  intro l
  induction l with
  | nil => simp
  | cons p t ih =>
      intro q
      simp only [List.foldl_cons, List.map_cons, List.sum_cons]
      rw [ih]
      unfold apply_dep_step
      by_cases hfl : sample_flags (frame, p.2) = 0
      · simp only [hfl, ne_eq, not_true_eq_false, if_false, ite_true,
          not_false_eq_true, ite_false]
        by_cases hw : channel_fwg2 p.1 = 0
        · simp only [hw, ite_true, mul_zero]
          by_cases hj : j = frame <;> simp [hj]
        · simp only [hw, ite_false, addAt]
          by_cases hj : j = frame <;> simp [hj] <;> ring
      · simp only [hfl, ne_eq, not_false_eq_true, if_true, ite_false]
        by_cases hj : j = frame <;> simp [hj]

lemma apply_dep_fold_snd (fp_norm : ℚ) (channel_fwg2 : ℕ → ℚ)
    (sample_flags : ℕ × ℕ → ℤ) (frame c0 : ℕ) :
    ∀ (l : List (ℕ × ℕ)) (q : (ℕ → ℚ) × (ℕ → ℚ)),
      (l.foldl (apply_dep_step fp_norm channel_fwg2 sample_flags frame) q).2 c0
        = q.2 c0
          + (l.map fun p =>
              if p.2 = c0 ∧ sample_flags (frame, p.2) = 0 then
                fp_norm * channel_fwg2 p.1
              else 0).sum := by
  intro l
  induction l with
  | nil => simp
  | cons p t ih =>
      intro q
      simp only [List.foldl_cons, List.map_cons, List.sum_cons]
      rw [ih]
      unfold apply_dep_step
      by_cases hfl : sample_flags (frame, p.2) = 0
      · simp only [hfl, ne_eq, not_true_eq_false, if_false, ite_true,
          and_true, not_false_eq_true, ite_false]
        by_cases hw : channel_fwg2 p.1 = 0
        · simp only [hw, ite_true, mul_zero]
          by_cases hc : p.2 = c0 <;> simp [hc]
        · simp only [hw, ite_false, addAt]
          by_cases hc : p.2 = c0
          · simp only [hc, ite_true, if_pos rfl]
            ring
          · have : ¬ c0 = p.2 := fun h => hc h.symm
            simp [hc, this]
      · simp only [hfl, ne_eq, not_false_eq_true, if_true, and_false,
          ite_false, zero_add]

lemma apply_frame_step_data (frame_weight : ℕ → ℚ)
    (frame_valid modeling_frames : ℕ → Bool)
    (channel_g channel_fwg2 : ℕ → ℚ) (channel_indices : List ℕ)
    (sample_flags : ℕ × ℕ → ℤ) (dc dw : ℚ) (st : ApplyState) (frame f0 c0 : ℕ) :
    (apply_frame_step frame_weight frame_valid modeling_frames channel_g
      channel_fwg2 channel_indices sample_flags dc dw st frame).frame_data
        (f0, c0)
      = st.frame_data (f0, c0)
        - (if f0 = frame ∧ frame_valid frame = true then
            (channel_indices.enum.map fun p =>
              if p.2 = c0 then channel_g p.1 * dc else 0).sum
           else 0) := by
  unfold apply_frame_step
  by_cases hv : frame_valid frame
  · by_cases hm : modeling_frames frame
    · simp only [hv, if_true, hm, ite_true, apply_data_fold]
      simp [hv]
    · by_cases hfp : frame_weight frame / dw = 0
      · simp only [hv, if_true, hm, Bool.false_eq_true, ite_false, hfp,
          ite_true, apply_data_fold]
        simp [hv]
      · simp only [hv, if_true, hm, Bool.false_eq_true, ite_false, hfp,
          apply_data_fold]
        simp [hv]
  · simp [hv]

lemma apply_frame_step_fdeps (frame_weight : ℕ → ℚ)
    (frame_valid modeling_frames : ℕ → Bool)
    (channel_g channel_fwg2 : ℕ → ℚ) (channel_indices : List ℕ)
    (sample_flags : ℕ × ℕ → ℤ) (dc dw : ℚ) (st : ApplyState) (frame j : ℕ) :
    (apply_frame_step frame_weight frame_valid modeling_frames channel_g
      channel_fwg2 channel_indices sample_flags dc dw st frame).frame_dependents j
      = st.frame_dependents j
        + (if j = frame ∧ frame_valid frame = true
              ∧ ¬ modeling_frames frame = true then
            (channel_indices.enum.map fun p =>
              if sample_flags (frame, p.2) = 0 then
                (frame_weight frame / dw) * channel_fwg2 p.1
              else 0).sum
           else 0) := by
  unfold apply_frame_step
  by_cases hv : frame_valid frame
  · by_cases hm : modeling_frames frame
    · simp [hv, hm]
    · by_cases hfp : frame_weight frame / dw = 0
      · have hz : (channel_indices.enum.map fun p =>
            if sample_flags (frame, p.2) = 0 then
              (frame_weight frame / dw) * channel_fwg2 p.1
            else 0).sum = 0 := by
          rw [hfp]
          simp only [zero_mul, ite_self]
          exact sum_map_zero _
        simp only [hv, if_true, hm, Bool.false_eq_true, ite_false, hfp,
          ite_true, hz]
        simp
      · simp only [hv, if_true, hm, Bool.false_eq_true, ite_false, hfp,
          apply_dep_fold_fst]
        simp [hv, hm]
  · simp [hv]

lemma apply_frame_step_cdeps (frame_weight : ℕ → ℚ)
    (frame_valid modeling_frames : ℕ → Bool)
    (channel_g channel_fwg2 : ℕ → ℚ) (channel_indices : List ℕ)
    (sample_flags : ℕ × ℕ → ℤ) (dc dw : ℚ) (st : ApplyState) (frame c0 : ℕ) :
    (apply_frame_step frame_weight frame_valid modeling_frames channel_g
      channel_fwg2 channel_indices sample_flags dc dw st frame).channel_dependents c0
      = st.channel_dependents c0
        + (if frame_valid frame = true ∧ ¬ modeling_frames frame = true then
            (channel_indices.enum.map fun p =>
              if p.2 = c0 ∧ sample_flags (frame, p.2) = 0 then
                (frame_weight frame / dw) * channel_fwg2 p.1
              else 0).sum
           else 0) := by
  unfold apply_frame_step
  by_cases hv : frame_valid frame
  · by_cases hm : modeling_frames frame
    · simp [hv, hm]
    · by_cases hfp : frame_weight frame / dw = 0
      · have hz : (channel_indices.enum.map fun p =>
            if p.2 = c0 ∧ sample_flags (frame, p.2) = 0 then
              (frame_weight frame / dw) * channel_fwg2 p.1
            else 0).sum = 0 := by
          rw [hfp]
          simp only [zero_mul, ite_self]
          exact sum_map_zero _
        simp only [hv, if_true, hm, Bool.false_eq_true, ite_false, hfp,
          ite_true, hz]
        simp
      · simp only [hv, if_true, hm, Bool.false_eq_true, ite_false, hfp,
          apply_dep_fold_snd]
        simp [hv, hm]
  · simp [hv]

lemma apply_frame_step_signal (frame_weight : ℕ → ℚ)
    (frame_valid modeling_frames : ℕ → Bool)
    (channel_g channel_fwg2 : ℕ → ℚ) (channel_indices : List ℕ)
    (sample_flags : ℕ × ℕ → ℤ) (dc dw : ℚ) (st : ApplyState) (frame : ℕ) :
    (apply_frame_step frame_weight frame_valid modeling_frames channel_g
      channel_fwg2 channel_indices sample_flags dc dw st frame).signal_values
        = st.signal_values
    ∧ (apply_frame_step frame_weight frame_valid modeling_frames channel_g
      channel_fwg2 channel_indices sample_flags dc dw st frame).signal_weights
        = st.signal_weights := by
  unfold apply_frame_step
  by_cases hv : frame_valid frame
  · by_cases hm : modeling_frames frame
    · simp [hv, hm]
    · by_cases hfp : frame_weight frame / dw = 0
      · simp [hv, hm, hfp]
      · simp [hv, hm, hfp]
  · simp [hv]

lemma foldl_val_add {α σ : Type} (step : σ → α → σ) (val : σ → ℚ) (ε : α → ℚ)
    (h : ∀ s a, val (step s a) = val s + ε a) :
    ∀ (l : List α) (s : σ), val (l.foldl step s) = val s + (l.map ε).sum := by
  intro l
  induction l with
  | nil => simp
  | cons a t ih =>
      intro s
      simp only [List.foldl_cons, List.map_cons, List.sum_cons]
      rw [ih, h]
      ring

lemma apply_frame_fold_data (frame_weight : ℕ → ℚ)
    (frame_valid modeling_frames : ℕ → Bool)
    (channel_g channel_fwg2 : ℕ → ℚ) (channel_indices : List ℕ)
    (sample_flags : ℕ × ℕ → ℤ) (dc dw : ℚ) (l : List ℕ) (hl : l.Nodup)
    (st : ApplyState) (f0 c0 : ℕ) :
    ((l.foldl (apply_frame_step frame_weight frame_valid modeling_frames
        channel_g channel_fwg2 channel_indices sample_flags dc dw) st).frame_data)
      (f0, c0)
      = st.frame_data (f0, c0)
        - (if f0 ∈ l ∧ frame_valid f0 = true then
            (channel_indices.enum.map fun p =>
              if p.2 = c0 then channel_g p.1 * dc else 0).sum
           else 0) := by
  have key := foldl_val_add
    (apply_frame_step frame_weight frame_valid modeling_frames channel_g
      channel_fwg2 channel_indices sample_flags dc dw)
    (fun st : ApplyState => st.frame_data ((f0, c0)))
    (fun frame => -(if f0 = frame ∧ frame_valid frame = true then
      (channel_indices.enum.map fun p =>
        if p.2 = c0 then channel_g p.1 * dc else 0).sum else 0))
    (by
      intro s frame
      simp only
      rw [apply_frame_step_data]
      ring) l st
  refine key.trans ?_
  rw [sum_map_neg]
  have h1 : ∀ frame : ℕ,
      (if f0 = frame ∧ frame_valid frame = true then
        (channel_indices.enum.map fun p =>
          if p.2 = c0 then channel_g p.1 * dc else 0).sum else 0)
      = (if f0 = frame then
          (if frame_valid frame = true then
            (channel_indices.enum.map fun p =>
              if p.2 = c0 then channel_g p.1 * dc else 0).sum else 0)
         else 0) := by
    intro frame
    rw [ite_ite_zero]
  rw [List.map_congr_left fun frame _ => h1 frame]
  rw [sum_map_single l hl f0]
  by_cases hm : f0 ∈ l
  · simp only [hm, if_true, true_and]
    by_cases hv : frame_valid f0 <;> simp [hv] <;> ring
  · simp [hm]

lemma apply_frame_fold_fdeps (frame_weight : ℕ → ℚ)
    (frame_valid modeling_frames : ℕ → Bool)
    (channel_g channel_fwg2 : ℕ → ℚ) (channel_indices : List ℕ)
    (sample_flags : ℕ × ℕ → ℤ) (dc dw : ℚ) (l : List ℕ) (hl : l.Nodup)
    (st : ApplyState) (j : ℕ) :
    ((l.foldl (apply_frame_step frame_weight frame_valid modeling_frames
        channel_g channel_fwg2 channel_indices sample_flags dc dw) st).frame_dependents) j
      = st.frame_dependents j
        + (if j ∈ l ∧ frame_valid j = true ∧ ¬ modeling_frames j = true then
            (channel_indices.enum.map fun p =>
              if sample_flags (j, p.2) = 0 then
                (frame_weight j / dw) * channel_fwg2 p.1
              else 0).sum
           else 0) := by
  have key := foldl_val_add
    (apply_frame_step frame_weight frame_valid modeling_frames channel_g
      channel_fwg2 channel_indices sample_flags dc dw)
    (fun st : ApplyState => st.frame_dependents j)
    (fun frame => (if j = frame ∧ frame_valid frame = true
        ∧ ¬ modeling_frames frame = true then
      (channel_indices.enum.map fun p =>
        if sample_flags (frame, p.2) = 0 then
          (frame_weight frame / dw) * channel_fwg2 p.1
        else 0).sum else 0))
    (by
      intro s frame
      simp only
      rw [apply_frame_step_fdeps]) l st
  refine key.trans ?_
  have h1 : ∀ frame : ℕ,
      (if j = frame ∧ frame_valid frame = true
          ∧ ¬ modeling_frames frame = true then
        (channel_indices.enum.map fun p =>
          if sample_flags (frame, p.2) = 0 then
            (frame_weight frame / dw) * channel_fwg2 p.1
          else 0).sum else 0)
      = (if j = frame then
          (if frame_valid frame = true ∧ ¬ modeling_frames frame = true then
            (channel_indices.enum.map fun p =>
              if sample_flags (frame, p.2) = 0 then
                (frame_weight frame / dw) * channel_fwg2 p.1
              else 0).sum else 0)
         else 0) := by
    intro frame
    by_cases hj : j = frame
    · simp [hj]
    · simp [hj]
  rw [List.map_congr_left fun frame _ => h1 frame]
  rw [sum_map_single l hl j]
  by_cases hm : j ∈ l
  · simp only [hm, if_true, true_and]
  · simp only [hm, false_and, if_false, ite_false, add_zero]

lemma apply_frame_fold_cdeps (frame_weight : ℕ → ℚ)
    (frame_valid modeling_frames : ℕ → Bool)
    (channel_g channel_fwg2 : ℕ → ℚ) (channel_indices : List ℕ)
    (sample_flags : ℕ × ℕ → ℤ) (dc dw : ℚ) (l : List ℕ)
    (st : ApplyState) (c0 : ℕ) :
    ((l.foldl (apply_frame_step frame_weight frame_valid modeling_frames
        channel_g channel_fwg2 channel_indices sample_flags dc dw) st).channel_dependents) c0
      = st.channel_dependents c0
        + (l.map fun f =>
            if frame_valid f = true ∧ ¬ modeling_frames f = true then
              (channel_indices.enum.map fun p =>
                if p.2 = c0 ∧ sample_flags (f, p.2) = 0 then
                  (frame_weight f / dw) * channel_fwg2 p.1
                else 0).sum
            else 0).sum := by
  have key := foldl_val_add
    (apply_frame_step frame_weight frame_valid modeling_frames channel_g
      channel_fwg2 channel_indices sample_flags dc dw)
    (fun st : ApplyState => st.channel_dependents c0)
    (fun f => (if frame_valid f = true ∧ ¬ modeling_frames f = true then
      (channel_indices.enum.map fun p =>
        if p.2 = c0 ∧ sample_flags (f, p.2) = 0 then
          (frame_weight f / dw) * channel_fwg2 p.1
        else 0).sum else 0))
    (by
      intro s f
      simp only
      rw [apply_frame_step_cdeps]) l st
  exact key

lemma apply_frame_fold_signal (frame_weight : ℕ → ℚ)
    (frame_valid modeling_frames : ℕ → Bool)
    (channel_g channel_fwg2 : ℕ → ℚ) (channel_indices : List ℕ)
    (sample_flags : ℕ × ℕ → ℤ) (dc dw : ℚ) (l : List ℕ) (st : ApplyState) :
    ((l.foldl (apply_frame_step frame_weight frame_valid modeling_frames
        channel_g channel_fwg2 channel_indices sample_flags dc dw) st).signal_values)
      = st.signal_values
    ∧ ((l.foldl (apply_frame_step frame_weight frame_valid modeling_frames
        channel_g channel_fwg2 channel_indices sample_flags dc dw) st).signal_weights)
      = st.signal_weights := by
  constructor
  · have key := foldl_proj (fun st : ApplyState => st.signal_values)
      (apply_frame_step frame_weight frame_valid modeling_frames channel_g
        channel_fwg2 channel_indices sample_flags dc dw)
      (fun s _ => s)
      (by
        intro s a
        exact (apply_frame_step_signal frame_weight frame_valid
          modeling_frames channel_g channel_fwg2 channel_indices
          sample_flags dc dw s a).1) l st
    exact key.trans (foldl_id l st.signal_values)
  · have key := foldl_proj (fun st : ApplyState => st.signal_weights)
      (apply_frame_step frame_weight frame_valid modeling_frames channel_g
        channel_fwg2 channel_indices sample_flags dc dw)
      (fun s _ => s)
      (by
        intro s a
        exact (apply_frame_step_signal frame_weight frame_valid
          modeling_frames channel_g channel_fwg2 channel_indices
          sample_flags dc dw s a).2) l st
    exact key.trans (foldl_id l st.signal_weights)

lemma apply_block_step_data (frame_weight : ℕ → ℚ)
    (frame_valid modeling_frames : ℕ → Bool)
    (channel_g channel_fwg2 : ℕ → ℚ) (channel_indices : List ℕ)
    (sample_flags : ℕ × ℕ → ℤ) (r : ℕ) (increment increment_weight : ℕ → ℚ)
    (st : ApplyState) (b f0 c0 : ℕ) :
    (apply_block_step frame_weight frame_valid modeling_frames channel_g
      channel_fwg2 channel_indices sample_flags r increment increment_weight
      st b).frame_data (f0, c0)
      = st.frame_data (f0, c0)
        - (if (b * r ≤ f0 ∧ f0 < b * r + r) ∧ 0 < increment_weight b
              ∧ frame_valid f0 = true then
            (channel_indices.enum.map fun p =>
              if p.2 = c0 then channel_g p.1 * increment b else 0).sum
           else 0) := by
  unfold apply_block_step
  by_cases hdw : increment_weight b ≤ 0
  · have h2 : ¬ 0 < increment_weight b := not_lt.mpr hdw
    simp [hdw, h2]
  · have h2 : 0 < increment_weight b := not_le.mp hdw
    simp only [hdw, ite_false]
    rw [apply_frame_fold_data _ _ _ _ _ _ _ _ _ _ (List.nodup_range' _ _)]
    simp only [List.mem_range'_1, h2, true_and]

lemma apply_block_step_fdeps (frame_weight : ℕ → ℚ)
    (frame_valid modeling_frames : ℕ → Bool)
    (channel_g channel_fwg2 : ℕ → ℚ) (channel_indices : List ℕ)
    (sample_flags : ℕ × ℕ → ℤ) (r : ℕ) (increment increment_weight : ℕ → ℚ)
    (st : ApplyState) (b j : ℕ) :
    (apply_block_step frame_weight frame_valid modeling_frames channel_g
      channel_fwg2 channel_indices sample_flags r increment increment_weight
      st b).frame_dependents j
      = st.frame_dependents j
        + (if (b * r ≤ j ∧ j < b * r + r) ∧ 0 < increment_weight b
              ∧ frame_valid j = true ∧ ¬ modeling_frames j = true then
            (channel_indices.enum.map fun p =>
              if sample_flags (j, p.2) = 0 then
                (frame_weight j / increment_weight b) * channel_fwg2 p.1
              else 0).sum
           else 0) := by
  unfold apply_block_step
  by_cases hdw : increment_weight b ≤ 0
  · have h2 : ¬ 0 < increment_weight b := not_lt.mpr hdw
    simp [hdw, h2]
  · have h2 : 0 < increment_weight b := not_le.mp hdw
    simp only [hdw, ite_false]
    rw [apply_frame_fold_fdeps _ _ _ _ _ _ _ _ _ _ (List.nodup_range' _ _)]
    simp only [List.mem_range'_1, h2, true_and]

lemma apply_block_step_cdeps (frame_weight : ℕ → ℚ)
    (frame_valid modeling_frames : ℕ → Bool)
    (channel_g channel_fwg2 : ℕ → ℚ) (channel_indices : List ℕ)
    (sample_flags : ℕ × ℕ → ℤ) (r : ℕ) (increment increment_weight : ℕ → ℚ)
    (st : ApplyState) (b c0 : ℕ) :
    (apply_block_step frame_weight frame_valid modeling_frames channel_g
      channel_fwg2 channel_indices sample_flags r increment increment_weight
      st b).channel_dependents c0
      = st.channel_dependents c0
        + (if 0 < increment_weight b then
            ((List.range' (b * r) r).map fun f =>
              if frame_valid f = true ∧ ¬ modeling_frames f = true then
                (channel_indices.enum.map fun p =>
                  if p.2 = c0 ∧ sample_flags (f, p.2) = 0 then
                    (frame_weight f / increment_weight b) * channel_fwg2 p.1
                  else 0).sum
              else 0).sum
           else 0) := by
  unfold apply_block_step
  by_cases hdw : increment_weight b ≤ 0
  · have h2 : ¬ 0 < increment_weight b := not_lt.mpr hdw
    simp [hdw, h2]
  · have h2 : 0 < increment_weight b := not_le.mp hdw
    simp only [hdw, ite_false]
    rw [apply_frame_fold_cdeps]
    simp [h2]

lemma apply_block_step_sv (frame_weight : ℕ → ℚ)
    (frame_valid modeling_frames : ℕ → Bool)
    (channel_g channel_fwg2 : ℕ → ℚ) (channel_indices : List ℕ)
    (sample_flags : ℕ × ℕ → ℤ) (r : ℕ) (increment increment_weight : ℕ → ℚ)
    (st : ApplyState) (b b0 : ℕ) :
    (apply_block_step frame_weight frame_valid modeling_frames channel_g
      channel_fwg2 channel_indices sample_flags r increment increment_weight
      st b).signal_values b0
      = st.signal_values b0
        + (if b0 = b ∧ 0 < increment_weight b then increment b else 0) := by
  unfold apply_block_step
  by_cases hdw : increment_weight b ≤ 0
  · have h2 : ¬ 0 < increment_weight b := not_lt.mpr hdw
    simp [hdw, h2]
  · have h2 : 0 < increment_weight b := not_le.mp hdw
    simp only [hdw, ite_false]
    have hsig := (apply_frame_fold_signal frame_weight frame_valid
      modeling_frames channel_g channel_fwg2 channel_indices sample_flags
      (increment b) (increment_weight b) (List.range' (b * r) r) st).1
    simp only [hsig, addAt, h2, and_true]
    by_cases hb : b0 = b
    · simp [hb]
    · simp [hb]

lemma apply_block_step_sw (frame_weight : ℕ → ℚ)
    (frame_valid modeling_frames : ℕ → Bool)
    (channel_g channel_fwg2 : ℕ → ℚ) (channel_indices : List ℕ)
    (sample_flags : ℕ × ℕ → ℤ) (r : ℕ) (increment increment_weight : ℕ → ℚ)
    (st : ApplyState) (b : ℕ) :
    (apply_block_step frame_weight frame_valid modeling_frames channel_g
      channel_fwg2 channel_indices sample_flags r increment increment_weight
      st b).signal_weights
      = (if 0 < increment_weight b then
          setAt st.signal_weights b (increment_weight b)
         else st.signal_weights) := by
  unfold apply_block_step
  by_cases hdw : increment_weight b ≤ 0
  · have h2 : ¬ 0 < increment_weight b := not_lt.mpr hdw
    simp [hdw, h2]
  · have h2 : 0 < increment_weight b := not_le.mp hdw
    simp only [hdw, ite_false]
    have hsig := (apply_frame_fold_signal frame_weight frame_valid
      modeling_frames channel_g channel_fwg2 channel_indices sample_flags
      (increment b) (increment_weight b) (List.range' (b * r) r) st).2
    simp [hsig, h2]

lemma apply_gain_increments_data (n_frames : ℕ) (frame_data : ℕ × ℕ → ℚ)
    (frame_weight : ℕ → ℚ) (frame_valid modeling_frames : ℕ → Bool)
    (frame_dependents : ℕ → ℚ) (channel_g channel_fwg2 : ℕ → ℚ)
    (channel_indices : List ℕ) (channel_dependents : ℕ → ℚ)
    (sample_flags : ℕ × ℕ → ℤ) (signal_values signal_weights : ℕ → ℚ)
    (resolution : ℤ) (increment increment_weight : ℕ → ℚ) (f0 c0 : ℕ) :
    (apply_gain_increments n_frames frame_data frame_weight frame_valid
      modeling_frames frame_dependents channel_g channel_fwg2 channel_indices
      channel_dependents sample_flags signal_values signal_weights resolution
      increment increment_weight).frame_data (f0, c0)
      = frame_data (f0, c0)
        - (if f0 < roundup_ratio n_frames (clamp_resolution resolution)
              * clamp_resolution resolution
              ∧ 0 < increment_weight (f0 / clamp_resolution resolution)
              ∧ frame_valid f0 = true then
            (channel_indices.enum.map fun p =>
              if p.2 = c0 then
                channel_g p.1 * increment (f0 / clamp_resolution resolution)
              else 0).sum
           else 0) := by
  unfold apply_gain_increments
  set r := clamp_resolution resolution with hrdef
  have hr : 0 < r := clamp_resolution_pos resolution
  set n_signal := roundup_ratio n_frames r with hnsig
  have key := foldl_val_add
    (apply_block_step frame_weight frame_valid modeling_frames channel_g
      channel_fwg2 channel_indices sample_flags r increment increment_weight)
    (fun st : ApplyState => st.frame_data ((f0, c0)))
    (fun b => -(if (b * r ≤ f0 ∧ f0 < b * r + r) ∧ 0 < increment_weight b
        ∧ frame_valid f0 = true then
      (channel_indices.enum.map fun p =>
        if p.2 = c0 then channel_g p.1 * increment b else 0).sum
      else 0))
    (by
      intro s b
      simp only
      rw [apply_block_step_data]
      ring)
    (List.range n_signal)
    ⟨frame_data, frame_dependents, channel_dependents, signal_values,
      signal_weights⟩
  refine key.trans ?_
  rw [sum_map_neg]
  have h1 : ∀ b : ℕ,
      (if (b * r ≤ f0 ∧ f0 < b * r + r) ∧ 0 < increment_weight b
          ∧ frame_valid f0 = true then
        (channel_indices.enum.map fun p =>
          if p.2 = c0 then channel_g p.1 * increment b else 0).sum
       else 0)
      = (if b * r ≤ f0 ∧ f0 < b * r + r then
          (if 0 < increment_weight b ∧ frame_valid f0 = true then
            (channel_indices.enum.map fun p =>
              if p.2 = c0 then channel_g p.1 * increment b else 0).sum
           else 0)
         else 0) := by
    intro b
    rw [ite_ite_zero]
  rw [List.map_congr_left fun b _ => h1 b]
  rw [range_block_sum_collapse _ _ _ hr]
  rw [ite_ite_zero]
  ring

lemma apply_gain_increments_fdeps (n_frames : ℕ) (frame_data : ℕ × ℕ → ℚ)
    (frame_weight : ℕ → ℚ) (frame_valid modeling_frames : ℕ → Bool)
    (frame_dependents : ℕ → ℚ) (channel_g channel_fwg2 : ℕ → ℚ)
    (channel_indices : List ℕ) (channel_dependents : ℕ → ℚ)
    (sample_flags : ℕ × ℕ → ℤ) (signal_values signal_weights : ℕ → ℚ)
    (resolution : ℤ) (increment increment_weight : ℕ → ℚ) (j : ℕ) :
    (apply_gain_increments n_frames frame_data frame_weight frame_valid
      modeling_frames frame_dependents channel_g channel_fwg2 channel_indices
      channel_dependents sample_flags signal_values signal_weights resolution
      increment increment_weight).frame_dependents j
      = frame_dependents j
        + (if j < roundup_ratio n_frames (clamp_resolution resolution)
              * clamp_resolution resolution
              ∧ 0 < increment_weight (j / clamp_resolution resolution)
              ∧ frame_valid j = true ∧ ¬ modeling_frames j = true then
            (channel_indices.enum.map fun p =>
              if sample_flags (j, p.2) = 0 then
                (frame_weight j
                  / increment_weight (j / clamp_resolution resolution))
                  * channel_fwg2 p.1
              else 0).sum
           else 0) := by
  unfold apply_gain_increments
  set r := clamp_resolution resolution with hrdef
  have hr : 0 < r := clamp_resolution_pos resolution
  set n_signal := roundup_ratio n_frames r with hnsig
  have key := foldl_val_add
    (apply_block_step frame_weight frame_valid modeling_frames channel_g
      channel_fwg2 channel_indices sample_flags r increment increment_weight)
    (fun st : ApplyState => st.frame_dependents j)
    (fun b => (if (b * r ≤ j ∧ j < b * r + r) ∧ 0 < increment_weight b
        ∧ frame_valid j = true ∧ ¬ modeling_frames j = true then
      (channel_indices.enum.map fun p =>
        if sample_flags (j, p.2) = 0 then
          (frame_weight j / increment_weight b) * channel_fwg2 p.1
        else 0).sum
      else 0))
    (by
      intro s b
      simp only
      rw [apply_block_step_fdeps])
    (List.range n_signal)
    ⟨frame_data, frame_dependents, channel_dependents, signal_values,
      signal_weights⟩
  refine key.trans ?_
  have h1 : ∀ b : ℕ,
      (if (b * r ≤ j ∧ j < b * r + r) ∧ 0 < increment_weight b
          ∧ frame_valid j = true ∧ ¬ modeling_frames j = true then
        (channel_indices.enum.map fun p =>
          if sample_flags (j, p.2) = 0 then
            (frame_weight j / increment_weight b) * channel_fwg2 p.1
          else 0).sum
       else 0)
      = (if b * r ≤ j ∧ j < b * r + r then
          (if 0 < increment_weight b ∧ frame_valid j = true
              ∧ ¬ modeling_frames j = true then
            (channel_indices.enum.map fun p =>
              if sample_flags (j, p.2) = 0 then
                (frame_weight j / increment_weight b) * channel_fwg2 p.1
              else 0).sum
           else 0)
         else 0) := by
    intro b
    rw [ite_ite_zero]
  rw [List.map_congr_left fun b _ => h1 b]
  rw [range_block_sum_collapse _ _ _ hr]
  rw [ite_ite_zero]

lemma apply_gain_increments_cdeps (n_frames : ℕ) (frame_data : ℕ × ℕ → ℚ)
    (frame_weight : ℕ → ℚ) (frame_valid modeling_frames : ℕ → Bool)
    (frame_dependents : ℕ → ℚ) (channel_g channel_fwg2 : ℕ → ℚ)
    (channel_indices : List ℕ) (channel_dependents : ℕ → ℚ)
    (sample_flags : ℕ × ℕ → ℤ) (signal_values signal_weights : ℕ → ℚ)
    (resolution : ℤ) (increment increment_weight : ℕ → ℚ) (c0 : ℕ) :
    (apply_gain_increments n_frames frame_data frame_weight frame_valid
      modeling_frames frame_dependents channel_g channel_fwg2 channel_indices
      channel_dependents sample_flags signal_values signal_weights resolution
      increment increment_weight).channel_dependents c0
      = channel_dependents c0
        + ((List.range (roundup_ratio n_frames (clamp_resolution resolution))).map
            fun b =>
              if 0 < increment_weight b then
                ((List.range' (b * clamp_resolution resolution)
                    (clamp_resolution resolution)).map fun f =>
                  if frame_valid f = true ∧ ¬ modeling_frames f = true then
                    (channel_indices.enum.map fun p =>
                      if p.2 = c0 ∧ sample_flags (f, p.2) = 0 then
                        (frame_weight f / increment_weight b)
                          * channel_fwg2 p.1
                      else 0).sum
                  else 0).sum
              else 0).sum := by
  unfold apply_gain_increments
  set r := clamp_resolution resolution with hrdef
  set n_signal := roundup_ratio n_frames r with hnsig
  have key := foldl_val_add
    (apply_block_step frame_weight frame_valid modeling_frames channel_g
      channel_fwg2 channel_indices sample_flags r increment increment_weight)
    (fun st : ApplyState => st.channel_dependents c0)
    (fun b => (if 0 < increment_weight b then
      ((List.range' (b * r) r).map fun f =>
        if frame_valid f = true ∧ ¬ modeling_frames f = true then
          (channel_indices.enum.map fun p =>
            if p.2 = c0 ∧ sample_flags (f, p.2) = 0 then
              (frame_weight f / increment_weight b) * channel_fwg2 p.1
            else 0).sum
        else 0).sum
      else 0))
    (by
      intro s b
      simp only
      rw [apply_block_step_cdeps])
    (List.range n_signal)
    ⟨frame_data, frame_dependents, channel_dependents, signal_values,
      signal_weights⟩
  exact key

lemma apply_gain_increments_sv (n_frames : ℕ) (frame_data : ℕ × ℕ → ℚ)
    (frame_weight : ℕ → ℚ) (frame_valid modeling_frames : ℕ → Bool)
    (frame_dependents : ℕ → ℚ) (channel_g channel_fwg2 : ℕ → ℚ)
    (channel_indices : List ℕ) (channel_dependents : ℕ → ℚ)
    (sample_flags : ℕ × ℕ → ℤ) (signal_values signal_weights : ℕ → ℚ)
    (resolution : ℤ) (increment increment_weight : ℕ → ℚ) (b0 : ℕ) :
    (apply_gain_increments n_frames frame_data frame_weight frame_valid
      modeling_frames frame_dependents channel_g channel_fwg2 channel_indices
      channel_dependents sample_flags signal_values signal_weights resolution
      increment increment_weight).signal_values b0
      = signal_values b0
        + (if b0 < roundup_ratio n_frames (clamp_resolution resolution)
              ∧ 0 < increment_weight b0 then
            increment b0
           else 0) := by
  unfold apply_gain_increments
  set r := clamp_resolution resolution with hrdef
  set n_signal := roundup_ratio n_frames r with hnsig
  have key := foldl_val_add
    (apply_block_step frame_weight frame_valid modeling_frames channel_g
      channel_fwg2 channel_indices sample_flags r increment increment_weight)
    (fun st : ApplyState => st.signal_values b0)
    (fun b => (if b0 = b ∧ 0 < increment_weight b then increment b else 0))
    (by
      intro s b
      simp only
      rw [apply_block_step_sv])
    (List.range n_signal)
    ⟨frame_data, frame_dependents, channel_dependents, signal_values,
      signal_weights⟩
  refine key.trans ?_
  have h1 : ∀ b : ℕ,
      (if b0 = b ∧ 0 < increment_weight b then increment b else 0)
      = (if b0 = b then
          (if 0 < increment_weight b then increment b else 0) else 0) := by
    intro b
    rw [ite_ite_zero]
  rw [List.map_congr_left fun b _ => h1 b]
  rw [range_single_sum]
  rw [ite_ite_zero]

lemma apply_gain_increments_sw (n_frames : ℕ) (frame_data : ℕ × ℕ → ℚ)
    (frame_weight : ℕ → ℚ) (frame_valid modeling_frames : ℕ → Bool)
    (frame_dependents : ℕ → ℚ) (channel_g channel_fwg2 : ℕ → ℚ)
    (channel_indices : List ℕ) (channel_dependents : ℕ → ℚ)
    (sample_flags : ℕ × ℕ → ℤ) (signal_values signal_weights : ℕ → ℚ)
    (resolution : ℤ) (increment increment_weight : ℕ → ℚ) (b0 : ℕ) :
    (apply_gain_increments n_frames frame_data frame_weight frame_valid
      modeling_frames frame_dependents channel_g channel_fwg2 channel_indices
      channel_dependents sample_flags signal_values signal_weights resolution
      increment increment_weight).signal_weights b0
      = (if b0 < roundup_ratio n_frames (clamp_resolution resolution)
            ∧ 0 < increment_weight b0 then
          increment_weight b0
         else signal_weights b0) := by
  unfold apply_gain_increments
  set r := clamp_resolution resolution with hrdef
  set n_signal := roundup_ratio n_frames r with hnsig
  have key := foldl_proj (fun st : ApplyState => st.signal_weights)
    (apply_block_step frame_weight frame_valid modeling_frames channel_g
      channel_fwg2 channel_indices sample_flags r increment increment_weight)
    (fun s b => if 0 < increment_weight b then setAt s b (increment_weight b)
      else s)
    (by
      intro s b
      simp only
      rw [apply_block_step_sw])
    (List.range n_signal)
    ⟨frame_data, frame_dependents, channel_dependents, signal_values,
      signal_weights⟩
  have key2 := congrFun key b0
  refine key2.trans ?_
  exact foldl_range_setAt (fun b => 0 < increment_weight b)
    increment_weight n_signal b0 signal_weights

lemma sum_map_ite_neg {α : Type} (l : List α) (P : α → Prop) [DecidablePred P]
    (x : α → ℚ) :
    (l.map fun a => if P a then -(x a) else 0).sum
      = -((l.map fun a => if P a then x a else 0).sum) := by
  rw [← sum_map_neg]
  refine congrArg _ (List.map_congr_left ?_)
  intro a _
  by_cases h : P a
  · simp [h]
  · simp [h]

/-- Claim C2: for every block with strictly positive increment weight,
`apply_gain_increments` subtracts `channel_gain * increment[block]` from the
frame data of every valid frame of the block; adds
`frame_weight / increment_weight * channel_fwg2` to the per-frame and
per-channel dependents exactly for valid, non-modeling frames and unflagged
samples; increments the block's signal value by the increment and sets the
block's signal weight to the increment weight.  Blocks with non-positive
increment weight leave frame data, dependents, signal value and signal
weight unchanged. -/
theorem c2_apply_gain_increments_spec (n_frames : ℕ) (frame_data : ℕ × ℕ → ℚ)
    (frame_weight : ℕ → ℚ) (frame_valid modeling_frames : ℕ → Bool)
    (frame_dependents : ℕ → ℚ) (channel_g channel_fwg2 : ℕ → ℚ)
    (channel_indices : List ℕ) (channel_dependents : ℕ → ℚ)
    (sample_flags : ℕ × ℕ → ℤ) (signal_values signal_weights : ℕ → ℚ)
    (resolution : ℤ) (increment increment_weight : ℕ → ℚ) (b f c0 : ℕ)
    (hb : b < n_blocks_of n_frames resolution)
    (hf1 : b * clamp_resolution resolution ≤ f)
    (hf2 : f < b * clamp_resolution resolution + clamp_resolution resolution) :
    ((apply_gain_increments n_frames frame_data frame_weight frame_valid
      modeling_frames frame_dependents channel_g channel_fwg2 channel_indices
      channel_dependents sample_flags signal_values signal_weights resolution
      increment increment_weight).frame_data (f, c0)
      = frame_data (f, c0)
        - (if 0 < increment_weight b ∧ frame_valid f = true then
            (channel_indices.enum.map fun p =>
              if p.2 = c0 then channel_g p.1 * increment b else 0).sum
           else 0))
    ∧ ((apply_gain_increments n_frames frame_data frame_weight frame_valid
      modeling_frames frame_dependents channel_g channel_fwg2 channel_indices
      channel_dependents sample_flags signal_values signal_weights resolution
      increment increment_weight).frame_dependents f
      = frame_dependents f
        + (if 0 < increment_weight b ∧ frame_valid f = true
              ∧ ¬ modeling_frames f = true then
            (channel_indices.enum.map fun p =>
              if sample_flags (f, p.2) = 0 then
                (frame_weight f / increment_weight b) * channel_fwg2 p.1
              else 0).sum
           else 0))
    ∧ ((apply_gain_increments n_frames frame_data frame_weight frame_valid
      modeling_frames frame_dependents channel_g channel_fwg2 channel_indices
      channel_dependents sample_flags signal_values signal_weights resolution
      increment increment_weight).signal_values b
      = signal_values b
        + (if 0 < increment_weight b then increment b else 0))
    ∧ ((apply_gain_increments n_frames frame_data frame_weight frame_valid
      modeling_frames frame_dependents channel_g channel_fwg2 channel_indices
      channel_dependents sample_flags signal_values signal_weights resolution
      increment increment_weight).signal_weights b
      = (if 0 < increment_weight b then increment_weight b
         else signal_weights b))
    ∧ (∀ c : ℕ,
      (apply_gain_increments n_frames frame_data frame_weight frame_valid
        modeling_frames frame_dependents channel_g channel_fwg2 channel_indices
        channel_dependents sample_flags signal_values signal_weights resolution
        increment increment_weight).channel_dependents c
      = channel_dependents c
        + ((List.range (roundup_ratio n_frames (clamp_resolution resolution))).map
            fun b2 =>
              if 0 < increment_weight b2 then
                ((List.range' (b2 * clamp_resolution resolution)
                    (clamp_resolution resolution)).map fun f2 =>
                  if frame_valid f2 = true ∧ ¬ modeling_frames f2 = true then
                    (channel_indices.enum.map fun p =>
                      if p.2 = c ∧ sample_flags (f2, p.2) = 0 then
                        (frame_weight f2 / increment_weight b2)
                          * channel_fwg2 p.1
                      else 0).sum
                  else 0).sum
              else 0).sum) := by
  have hr : 0 < clamp_resolution resolution := clamp_resolution_pos resolution
  have hdiv : f / clamp_resolution resolution = b :=
    block_of_mem_range' hr hf1 hf2
  have hlt : f < roundup_ratio n_frames (clamp_resolution resolution)
      * clamp_resolution resolution := by
    have hb' : b + 1 ≤ roundup_ratio n_frames (clamp_resolution resolution) := hb
    have h2 : (b + 1) * clamp_resolution resolution
        ≤ roundup_ratio n_frames (clamp_resolution resolution)
          * clamp_resolution resolution :=
      Nat.mul_le_mul_right _ hb'
    have h3 : (b + 1) * clamp_resolution resolution
        = b * clamp_resolution resolution + clamp_resolution resolution := by
      ring
    omega
  refine ⟨?_, ?_, ?_, ?_, ?_⟩
  · rw [apply_gain_increments_data]
    rw [hdiv]
    simp [hlt]
  · rw [apply_gain_increments_fdeps]
    rw [hdiv]
    simp [hlt]
  · rw [apply_gain_increments_sv]
    have : b < roundup_ratio n_frames (clamp_resolution resolution) := hb
    simp [this]
  · rw [apply_gain_increments_sw]
    have : b < roundup_ratio n_frames (clamp_resolution resolution) := hb
    simp [this]
  · intro c
    rw [apply_gain_increments_cdeps]

theorem c2_witness :
    (apply_gain_increments 1 (fun _ => 5) (fun _ => 1) (fun _ => true)
      (fun _ => false) (fun _ => 0) (fun _ => 2) (fun _ => 3) [0]
      (fun _ => 0) (fun _ => 0) (fun _ => 0) (fun _ => 0) 1 (fun _ => 1)
      (fun _ => 1)).frame_data (0, 0) = 3 := by
  have h := c2_apply_gain_increments_spec 1 (fun _ => 5) (fun _ => 1)
    (fun _ => true) (fun _ => false) (fun _ => 0) (fun _ => 2) (fun _ => 3)
    [0] (fun _ => 0) (fun _ => 0) (fun _ => 0) (fun _ => 0) 1 (fun _ => 1)
    (fun _ => 1) 0 0 0 (by decide) (by decide) (by decide)
  rw [h.1]
  norm_num [List.enum, List.enumFrom]

/-- Claim C3: applying a gain increment and then resyncing it away restores
the frame data.  `resync_gains` is called with the gain delta `-channel_g`
and, as the signal, the increments actually applied (the increment where the
increment weight was positive, zero elsewhere); every frame-data cell then
returns to its value before `apply_gain_increments`. -/
theorem c3_apply_resync_round_trip (n_frames : ℕ) (frame_data : ℕ × ℕ → ℚ)
    (frame_weight : ℕ → ℚ) (frame_valid modeling_frames : ℕ → Bool)
    (frame_dependents : ℕ → ℚ) (channel_g channel_fwg2 : ℕ → ℚ)
    (channel_indices : List ℕ) (channel_dependents : ℕ → ℚ)
    (sample_flags : ℕ × ℕ → ℤ) (signal_values signal_weights : ℕ → ℚ)
    (resolution : ℤ) (increment increment_weight : ℕ → ℚ) (f c : ℕ) :
    resync_gains n_frames
      (apply_gain_increments n_frames frame_data frame_weight frame_valid
        modeling_frames frame_dependents channel_g channel_fwg2
        channel_indices channel_dependents sample_flags signal_values
        signal_weights resolution increment increment_weight).frame_data
      (fun b => if 0 < increment_weight b then increment b else 0)
      resolution
      (fun i => -(channel_g i))
      channel_indices frame_valid (f, c)
    = frame_data (f, c) := by
  rw [resync_gains_point, apply_gain_increments_data]
  set r := clamp_resolution resolution with hrdef
  set N := roundup_ratio n_frames r with hN
  by_cases h1 : f < N * r ∧ frame_valid f = true
  · by_cases h2 : 0 < increment_weight (f / r)
    · have hA : (if f < N * r ∧ 0 < increment_weight (f / r)
          ∧ frame_valid f = true then
            (channel_indices.enum.map fun p =>
              if p.2 = c then channel_g p.1 * increment (f / r) else 0).sum
          else 0)
          = (channel_indices.enum.map fun p =>
              if p.2 = c then channel_g p.1 * increment (f / r) else 0).sum := by
        rw [if_pos ⟨h1.1, h2, h1.2⟩]
      have hB : (if f < N * r ∧ frame_valid f = true then
            (channel_indices.enum.map fun p =>
              if p.2 = c then
                -(channel_g p.1)
                  * (if 0 < increment_weight (f / r) then increment (f / r)
                     else 0)
              else 0).sum
          else 0)
          = -((channel_indices.enum.map fun p =>
              if p.2 = c then channel_g p.1 * increment (f / r) else 0).sum) := by
        rw [if_pos h1]
        rw [if_pos h2]
        rw [← sum_map_ite_neg]
        refine congrArg _ (List.map_congr_left ?_)
        intro p _
        by_cases hp : p.2 = c
        · simp [hp]
        · simp [hp]
      rw [hA, hB]
      ring
    · have hA : ¬ (f < N * r ∧ 0 < increment_weight (f / r)
          ∧ frame_valid f = true) := by
        intro hcon
        exact h2 hcon.2.1
      rw [if_neg hA]
      rw [if_pos h1]
      rw [if_neg h2]
      have hz : (channel_indices.enum.map fun p =>
          if p.2 = c then -(channel_g p.1) * (0 : ℚ) else 0).sum = 0 := by
        simp only [mul_zero, ite_self]
        exact sum_map_zero _
      rw [hz]
      ring
  · have hA : ¬ (f < N * r ∧ 0 < increment_weight (f / r)
        ∧ frame_valid f = true) := by
      intro hcon
      exact h1 ⟨hcon.1, hcon.2.2⟩
    rw [if_neg hA, if_neg h1]
    ring

/-! ### `calculate_filtering` (source lines 390-471) -/

/-- `calculate_filtering`: compute the new signal and channel source
filtering, one entry per channel position.  Invalid channels pass their
prior values through.  For a valid channel `phi` starts from the channel's
dependents, accumulates `overlap * dependents` over the other valid
channels (the full symmetric double loop, skipping zero overlaps),
is divided by `n_parms` when `n_parms > 0` and capped at 1; the prior
filtering correction is undone (`cf /= sf` when `sf > 0`), the new signal
filtering is `1 - phi` and the channel filtering is multiplied by it.
The source's `np.isnan(cf)` reset cannot fire in this exact-rational
embedding (the `sf > 0` guard keeps the division well-defined), so it is
omitted.  Returns `(new_channel_source_filtering,
new_signal_source_filtering)` as lists over the channel positions. -/
def calculate_filtering (channel_indices : List ℕ)
    (channel_dependents : ℕ → ℚ) (overlaps : ℕ × ℕ → ℚ)
    (channel_valid : ℕ → Bool) (n_parms : ℚ)
    (channel_source_filtering signal_source_filtering : ℕ → ℚ) :
    List ℚ × List ℚ :=
  let entry : ℕ × ℕ → ℚ × ℚ := fun q =>
    if ¬ channel_valid q.1 then
      (channel_source_filtering q.1, signal_source_filtering q.1)
    else
      let phi0 := channel_dependents q.2
      let phi := channel_indices.enum.foldl
        (fun phi p =>
          if ¬ channel_valid p.1 then phi
          else if q.1 = p.1 then phi
          else
            let overlap_value := overlaps (q.1, p.1)
            if overlap_value = 0 then phi
            else phi + overlap_value * channel_dependents p.2)
        phi0
      let phi2 := if 0 < n_parms then phi / n_parms else phi
      let phi3 := if 1 < phi2 then 1 else phi2
      let sf := signal_source_filtering q.1
      let cf0 := channel_source_filtering q.1
      let cf1 := if 0 < sf then cf0 / sf else cf0
      let sf2 := 1 - phi3
      (cf1 * sf2, sf2)
  (channel_indices.enum.map fun q => (entry q).1,
   channel_indices.enum.map fun q => (entry q).2)

lemma getD_map_enum (l : List ℕ) (f : ℕ × ℕ → ℚ) {i : ℕ}
    (hi : i < l.length) (d : ℚ) :
    ((l.enum.map f).getD i d) = f (i, l.getD i 0) := by
  rw [List.getD_eq_getElem?_getD, List.getElem?_map]
  have hlen : i < l.enum.length := by simp [hi]
  rw [List.getElem?_eq_getElem hlen]
  simp only [Option.map_some, Option.getD_some, List.getElem_enum]
  rw [List.getD_eq_getElem?_getD, List.getElem?_eq_getElem hi]
  rfl

/-- Counterexample to claim C5 as stated: with an all-zero overlap matrix
and `n_parms = 0` but a nonzero channel dependent (1/2), the new signal
source filtering of the (valid) channel is 1/2, not 1, and the channel
filtering changes as well. -/
theorem c5_counterexample :
    ¬ (((calculate_filtering [0] (fun _ => 1/2) (fun _ => 0) (fun _ => true) 0
        (fun _ => 1) (fun _ => 1)).2.getD 0 0 = 1)
      ∧ ((calculate_filtering [0] (fun _ => 1/2) (fun _ => 0) (fun _ => true) 0
        (fun _ => 1) (fun _ => 1)).1.getD 0 0 = 1)) := by
  intro hcon
  have h := hcon.1
  norm_num [calculate_filtering, List.enum, List.enumFrom] at h

/-- Claim C5, amended: when `calculate_filtering` is called with an all-zero
overlap matrix, `n_parms = 0`, *zero channel dependents* and *prior signal
source filtering equal to 1* at a valid channel, the new signal source
filtering of that channel is 1 and its channel source filtering is
unchanged. -/
theorem c5_filtering_neutral (channel_indices : List ℕ)
    (channel_dependents : ℕ → ℚ) (overlaps : ℕ × ℕ → ℚ)
    (channel_valid : ℕ → Bool) (n_parms : ℚ)
    (channel_source_filtering signal_source_filtering : ℕ → ℚ) (i : ℕ)
    (hi : i < channel_indices.length)
    (hover : ∀ x : ℕ × ℕ, overlaps x = 0)
    (hparms : n_parms = 0)
    (hv : channel_valid i = true)
    (hdep : channel_dependents (channel_indices.getD i 0) = 0)
    (hsf : signal_source_filtering i = 1) :
    ((calculate_filtering channel_indices channel_dependents overlaps
        channel_valid n_parms channel_source_filtering
        signal_source_filtering).2.getD i 0 = 1)
    ∧ ((calculate_filtering channel_indices channel_dependents overlaps
        channel_valid n_parms channel_source_filtering
        signal_source_filtering).1.getD i 0
      = channel_source_filtering i) := by
  have hfold : ∀ (x : ℚ) (l : List (ℕ × ℕ)),
      l.foldl
        (fun phi p =>
          if ¬ channel_valid p.1 then phi
          else if i = p.1 then phi
          else
            let overlap_value := overlaps (i, p.1)
            if overlap_value = 0 then phi
            else phi + overlap_value * channel_dependents p.2)
        x = x := by
    intro x l
    induction l generalizing x with
    | nil => rfl
    | cons p t ih =>
        simp only [List.foldl_cons, hover, ite_true, ite_self]
        exact foldl_id t x
  unfold calculate_filtering
  constructor
  · rw [getD_map_enum _ _ hi]
    simp only [hv, not_true_eq_false, ite_false, hfold, hdep, hparms]
    norm_num
  · rw [getD_map_enum _ _ hi]
    simp only [hv, not_true_eq_false, ite_false, hfold, hdep, hparms, hsf]
    norm_num

theorem c5_witness :
    ((calculate_filtering [0] (fun _ => 0) (fun _ => 0) (fun _ => true) 0
        (fun _ => 7) (fun _ => 1)).2.getD 0 0 = 1)
    ∧ ((calculate_filtering [0] (fun _ => 0) (fun _ => 0) (fun _ => true) 0
        (fun _ => 7) (fun _ => 1)).1.getD 0 0 = 7) :=
  c5_filtering_neutral [0] (fun _ => 0) (fun _ => 0) (fun _ => true) 0
    (fun _ => 7) (fun _ => 1) 0 (by decide) (fun _ => rfl) rfl rfl rfl rfl

/-! ### `differentiate_signal` (source lines 474-496) -/

/-- `differentiate_signal`: in-place two-pass differentiation.  The forward
pass replaces `values[i]` by `(values[i+1] - values[i]) / dt` for
`i in range(n - 1)`, then `values[-1] = values[-2]`, and the backward pass
runs `i` from `n - 1` down to 1 with
`values[i] = 0.5 * (values[i] + values[i-1])`. -/
def differentiate_signal (n : ℕ) (values : ℕ → ℚ) (dt : ℚ) : ℕ → ℚ :=
  let nm1 := n - 1
  let v1 := (List.range nm1).foldl
    (fun g i => setAt g i ((g (i + 1) - g i) / dt)) values
  let v2 := setAt v1 (n - 1) (v1 (n - 2))
  (List.range' 1 nm1).reverse.foldl
    (fun g i => setAt g i ((1 / 2) * (g i + g (i - 1)))) v2

/-- The forward-difference pass as the claim describes it, pointwise:
`(v[i+1] - v[i]) / dt` everywhere but the last index, which mirrors the
previous difference. -/
def forward_diff_spec (n : ℕ) (values : ℕ → ℚ) (dt : ℚ) : ℕ → ℚ :=
  fun i =>
    if i + 1 < n then (values (i + 1) - values i) / dt
    else if i + 1 = n then (values (n - 1) - values (n - 2)) / dt
    else values i

/-- The backward smoothing pass as the claim describes it, pointwise:
`v[i] = 0.5 * (v[i] + v[i-1])` for `1 <= i < n`. -/
def backward_smooth_spec (n : ℕ) (u : ℕ → ℚ) : ℕ → ℚ :=
  fun i => if 1 ≤ i ∧ i < n then (1 / 2) * (u i + u (i - 1)) else u i

lemma diff_forward_fold (values : ℕ → ℚ) (dt : ℚ) :
    ∀ (k : ℕ),
      (List.range k).foldl
        (fun g i => setAt g i ((g (i + 1) - g i) / dt)) values
      = fun j => if j < k then (values (j + 1) - values j) / dt else values j := by
  intro k
  induction k with
  | zero => simp
  | succ k ih =>
      rw [List.range_succ, List.foldl_append]
      simp only [List.foldl_cons, List.foldl_nil]
      rw [ih]
      funext j
      unfold setAt
      by_cases hj : j = k
      · subst hj
        have h1 : ¬ j + 1 < j + 1 := by omega
        have h2 : ¬ j < j := by omega
        have h3 : j < j + 1 := by omega
        simp [h1, h2, h3]
      · by_cases hlt : j < k
        · have : j < k + 1 := by omega
          simp [hj, hlt, this]
        · have : ¬ j < k + 1 := by omega
          simp [hj, hlt, this]

lemma diff_backward_fold (m : ℕ) :
    ∀ (u : ℕ → ℚ),
      (List.range' 1 m).reverse.foldl
        (fun g i => setAt g i ((1 / 2) * (g i + g (i - 1)))) u
      = fun j => if 1 ≤ j ∧ j ≤ m then (1 / 2) * (u j + u (j - 1)) else u j := by
  induction m with
  | zero =>
      intro u
      funext j
      have h0 : ¬ (1 ≤ j ∧ j = 0) := by omega
      simp [h0]
  | succ m ih =>
      intro u
      have hconcat : List.range' 1 (m + 1) = List.range' 1 m ++ [1 + 1 * m] := by
        exact List.range'_concat 1 m
      rw [hconcat, List.reverse_append]
      simp only [List.reverse_cons, List.reverse_nil, List.nil_append,
        List.singleton_append, List.foldl_cons]
      rw [ih]
      funext j
      unfold setAt
      have h1m : 1 + 1 * m = m + 1 := by omega
      rw [h1m]
      by_cases hj : j = m + 1
      · subst hj
        have h2 : ¬ (1 ≤ m + 1 ∧ m + 1 ≤ m) := by omega
        have h3 : 1 ≤ m + 1 ∧ m + 1 ≤ m + 1 := by omega
        have h4 : ¬ (1 ≤ m ∧ m ≤ m) ∨ (1 ≤ m ∧ m ≤ m) := by tauto
        simp only [if_pos rfl, h2, ite_false, h3, ite_true]
        have h5 : m + 1 - 1 = m := by omega
        rw [h5]
        by_cases hm : 1 ≤ m
        · have h6 : ¬ m = m + 1 := by omega
          have h7 : 1 ≤ m ∧ m ≤ m := by omega
          simp [h6, h7]
        · have h6 : m = 0 := by omega
          subst h6
          simp
      · by_cases hin : 1 ≤ j ∧ j ≤ m
        · have h2 : 1 ≤ j ∧ j ≤ m + 1 := by omega
          have h3 : ¬ j - 1 = m + 1 := by omega
          simp [hj, hin, h2, h3]
        · have h2 : ¬ (1 ≤ j ∧ j ≤ m + 1) := by omega
          simp [hj, hin, h2]

/-- Claim C10: `differentiate_signal` transforms the series in exactly two
passes: a forward pass replacing `v[i]` by `(v[i+1] - v[i]) / dt` for every
index except the last, with the last value set to the previous difference,
followed by a backward pass replacing `v[i]` by `0.5 * (v[i] + v[i-1])`
from the end down to index 1. -/
theorem c10_differentiate_two_pass (n : ℕ) (values : ℕ → ℚ) (dt : ℚ)
    (hn : 2 ≤ n) :
    ∀ i : ℕ, differentiate_signal n values dt i
      = backward_smooth_spec n (forward_diff_spec n values dt) i := by
  intro i
  unfold differentiate_signal
  rw [diff_forward_fold]
  have hv2 : (setAt
      (fun j => if j < n - 1 then (values (j + 1) - values j) / dt
                else values j)
      (n - 1)
      ((fun j => if j < n - 1 then (values (j + 1) - values j) / dt
                 else values j) (n - 2)))
      = forward_diff_spec n values dt := by
    funext j
    unfold setAt forward_diff_spec
    by_cases hj : j = n - 1
    · subst hj
      have h1 : n - 2 < n - 1 := by omega
      have h2 : ¬ (n - 1 + 1 < n) := by omega
      have h3 : n - 1 + 1 = n := by omega
      have h4 : n - 2 + 1 = n - 1 := by omega
      simp [h1, h2, h3, h4]
    · by_cases hlt : j + 1 < n
      · have h1 : j < n - 1 := by omega
        simp [hj, hlt, h1]
      · have h1 : ¬ j < n - 1 := by omega
        have h2 : ¬ j + 1 = n := by omega
        simp [hj, hlt, h1, h2]
  rw [hv2]
  rw [diff_backward_fold]
  unfold backward_smooth_spec
  by_cases hc : 1 ≤ i ∧ i < n
  · have hc2 : 1 ≤ i ∧ i ≤ n - 1 := by omega
    simp [hc, hc2]
  · have hc2 : ¬ (1 ≤ i ∧ i ≤ n - 1) := by omega
    simp [hc, hc2]

theorem c10_witness :
    2 ≤ 3
    ∧ differentiate_signal 3 (fun i => (i : ℚ) * i) 1 2
      = backward_smooth_spec 3 (forward_diff_spec 3 (fun i => (i : ℚ) * i) 1) 2 :=
  ⟨by decide, c10_differentiate_two_pass 3 (fun i => (i : ℚ) * i) 1 (by decide) 2⟩

/-! ### `level` and `remove_drifts` (source lines 660-751) -/

/-- Modelled from the spec: the utility `numba_functions.mean` (its module is
not under `src/`), specified as the weighted mean `sum(w*x)/sum(w)` returning
`(mean, weight = sum(w))`, and `(0, 0)` when the total weight is zero. -/
def mean (values weights : List ℚ) : ℚ × ℚ :=
  let w_sum := weights.sum
  if w_sum = 0 then (0, 0)
  else (((values.zip weights).map fun p => p.1 * p.2).sum / w_sum, w_sum)

/-- `level`: remove and return the average signal value between
`start_frame` (inclusive) and `end_frame` (exclusive).  The frame range is
converted to the signal index range
`[start_frame // resolution, roundup_ratio(end_frame, resolution))`, the
weighted mean over that range is computed (unit weights when `weights` is
absent, mirroring `np.ones`) and subtracted in place from every signal value
of the range; the subtracted value is returned.  The `robust=True` branch
dispatches to `numba_functions.smart_median_1d`, whose code is not under
`src/`; only the default mean path (`robust=False`) is embedded.  The python
slice `values[start:end]` is represented by the explicit index range (the
slice's clamping at the array end is not modelled; callers keep
`end_signal_index` within the signal length). -/
def level (values : ℕ → ℚ) (start_frame end_frame : ℕ) (resolution : ℕ)
    (weights : Option (ℕ → ℚ)) : (ℕ → ℚ) × ℚ :=
  let start_signal_index := start_frame / resolution
  let end_signal_index := roundup_ratio end_frame resolution
  let idx := List.range' start_signal_index
    (end_signal_index - start_signal_index)
  let x := idx.map values
  let w := match weights with
    | some wf => idx.map wf
    | none => List.replicate x.length 1
  let center := (mean x w).1
  (idx.foldl (fun g i => subAt g i center) values, center)

/-- The body of the drift loop of `remove_drifts`: the segment runs from
`drift_index * n_frames` for `n_frames` frames, truncated at
`integration_size`; `level` is called on the current signal values and the
returned offset is added to the segment's entry of the drifts array. -/
def remove_drifts_step (n_frames resolution integration_size : ℕ)
    (signal_weights : Option (ℕ → ℚ))
    (p : (ℕ → ℚ) × (ℕ → ℚ)) (drift_index : ℕ) : (ℕ → ℚ) × (ℕ → ℚ) :=
  let start_frame := drift_index * n_frames
  let end_frame := if integration_size < start_frame + n_frames then
    integration_size else start_frame + n_frames
  let lv := level p.1 start_frame end_frame resolution signal_weights
  (lv.1, addAt p.2 drift_index lv.2)

/-- `remove_drifts`: partitions the integration into `drifts.size` segments
of `n_frames` frames (truncated at `integration_size`), levels each segment
in turn and accumulates the removed offset into the drifts array. -/
def remove_drifts (signal_values drifts : ℕ → ℚ)
    (n_drifts n_frames resolution integration_size : ℕ)
    (signal_weights : Option (ℕ → ℚ)) : (ℕ → ℚ) × (ℕ → ℚ) :=
  (List.range n_drifts).foldl
    (remove_drifts_step n_frames resolution integration_size signal_weights)
    (signal_values, drifts)

lemma remove_drifts_fold_shift (n_frames resolution integration_size : ℕ)
    (signal_weights : Option (ℕ → ℚ)) :
    ∀ (l : List ℕ) (v d d2 : ℕ → ℚ),
      ((l.foldl (remove_drifts_step n_frames resolution integration_size
          signal_weights) (v, d)).1
        = (l.foldl (remove_drifts_step n_frames resolution integration_size
          signal_weights) (v, d2)).1)
      ∧ ∀ i : ℕ,
        (l.foldl (remove_drifts_step n_frames resolution integration_size
          signal_weights) (v, d)).2 i
        = d i
          + ((l.foldl (remove_drifts_step n_frames resolution integration_size
              signal_weights) (v, d2)).2 i - d2 i) := by
  intro l
  induction l with
  | nil =>
      intro v d d2
      constructor
      · rfl
      · intro i
        simp
  | cons a t ih =>
      intro v d d2
      simp only [List.foldl_cons]
      have hstep : ∀ dd : ℕ → ℚ,
          remove_drifts_step n_frames resolution integration_size
            signal_weights (v, dd) a
          = ((level v (a * n_frames)
                (if integration_size < a * n_frames + n_frames then
                  integration_size else a * n_frames + n_frames)
                resolution signal_weights).1,
             addAt dd a
               ((level v (a * n_frames)
                (if integration_size < a * n_frames + n_frames then
                  integration_size else a * n_frames + n_frames)
                resolution signal_weights).2)) := by
        intro dd
        rfl
      rw [hstep d, hstep d2]
      have key := ih
        ((level v (a * n_frames)
          (if integration_size < a * n_frames + n_frames then
            integration_size else a * n_frames + n_frames)
          resolution signal_weights).1)
        (addAt d a
          ((level v (a * n_frames)
            (if integration_size < a * n_frames + n_frames then
              integration_size else a * n_frames + n_frames)
            resolution signal_weights).2))
        (addAt d2 a
          ((level v (a * n_frames)
            (if integration_size < a * n_frames + n_frames then
              integration_size else a * n_frames + n_frames)
            resolution signal_weights).2))
      refine ⟨key.1, ?_⟩
      intro i
      rw [key.2 i]
      unfold addAt
      by_cases hi : i = a
      · simp [hi]
        ring
      · simp [hi]

/-- Claim C8: `remove_drifts` partitions the integration into `drifts.size`
segments of `n_frames` frames each (truncated at the integration size),
levels each segment, and accumulates the returned offsets additively into
the drifts array; an existing entry is incremented, never overwritten, so
repeated calls accumulate the cumulative drift removed.  Formally: the
output signal values do not depend on the incoming drifts, and the output
drifts equal the incoming drifts plus the offsets that a zero-initialised
run would produce. -/
theorem c8_remove_drifts_accumulates (signal_values drifts : ℕ → ℚ)
    (n_drifts n_frames resolution integration_size : ℕ)
    (signal_weights : Option (ℕ → ℚ)) :
    ((remove_drifts signal_values drifts n_drifts n_frames resolution
        integration_size signal_weights).1
      = (remove_drifts signal_values (fun _ => 0) n_drifts n_frames resolution
        integration_size signal_weights).1)
    ∧ ∀ i : ℕ,
      (remove_drifts signal_values drifts n_drifts n_frames resolution
        integration_size signal_weights).2 i
      = drifts i
        + (remove_drifts signal_values (fun _ => 0) n_drifts n_frames
            resolution integration_size signal_weights).2 i := by
  have key := remove_drifts_fold_shift n_frames resolution integration_size
    signal_weights (List.range n_drifts) signal_values drifts (fun _ => 0)
  unfold remove_drifts
  refine ⟨key.1, ?_⟩
  intro i
  rw [key.2 i]
  simp

/-! ### `get_covariance` (source lines 754-820) -/

/-- The three per-channel accumulators of `get_covariance`. -/
structure CovSums where
  sum_xs : ℕ → ℚ
  sum_x2 : ℕ → ℚ
  sum_s2 : ℕ → ℚ

/-- The body of the frame loop of `get_covariance`: invalid frames are
skipped; for each channel position, zero channel weights and nonzero sample
flags are skipped, otherwise `w*x*x`, `w*x*s` and `w*s*s` are accumulated
at the channel position.  (The source also skips `np.isnan(s)`; exact
rationals carry no NaN, so that guard is omitted here and treated in the
NaN-aware embedding of claim C6.) -/
def cov_frame_step (signal_values : ℕ → ℚ) (frame_data : ℕ × ℕ → ℚ)
    (frame_valid : ℕ → Bool) (channel_indices : List ℕ)
    (channel_weights : ℕ → ℚ) (sample_flags : ℕ × ℕ → ℤ)
    (st : CovSums) (frame : ℕ) : CovSums :=
  if frame_valid frame then
    let s := signal_values frame
    channel_indices.enum.foldl
      (fun st p =>
        let w := channel_weights p.1
        if w = 0 then st
        else if sample_flags (frame, p.2) ≠ 0 then st
        else
          let x := frame_data (frame, p.2)
          { st with
              sum_x2 := addAt st.sum_x2 p.1 (w * x * x),
              sum_xs := addAt st.sum_xs p.1 (w * x * s),
              sum_s2 := addAt st.sum_s2 p.1 (w * s * s) })
      st
  else st

/-- The radicand computed by `get_covariance`:
`c2 = sum over channels with xs > 0 of xs^2 / (sum_x2 * sum_s2)`,
accumulated exactly as in the source's final loop. -/
def get_cov_sums (n_frames : ℕ) (signal_values : ℕ → ℚ)
    (frame_data : ℕ × ℕ → ℚ) (frame_valid : ℕ → Bool)
    (channel_indices : List ℕ) (channel_weights : ℕ → ℚ)
    (sample_flags : ℕ × ℕ → ℤ) : CovSums :=
  (List.range n_frames).foldl
    (cov_frame_step signal_values frame_data frame_valid channel_indices
      channel_weights sample_flags)
    ⟨fun _ => 0, fun _ => 0, fun _ => 0⟩

def get_covariance_sq (n_frames : ℕ) (signal_values : ℕ → ℚ)
    (frame_data : ℕ × ℕ → ℚ) (frame_valid : ℕ → Bool)
    (channel_indices : List ℕ) (channel_weights : ℕ → ℚ)
    (sample_flags : ℕ × ℕ → ℤ) : ℚ :=
  let sums := get_cov_sums n_frames signal_values frame_data frame_valid
    channel_indices channel_weights sample_flags
  (List.range channel_indices.length).foldl
    (fun c2 i =>
      let xs := sums.sum_xs i
      if 0 < xs then c2 + xs * xs / (sums.sum_x2 i * sums.sum_s2 i) else c2)
    0

/-- `get_covariance`: the square root of the accumulated `c2`. -/
noncomputable def get_covariance (n_frames : ℕ) (signal_values : ℕ → ℚ)
    (frame_data : ℕ × ℕ → ℚ) (frame_valid : ℕ → Bool)
    (channel_indices : List ℕ) (channel_weights : ℕ → ℚ)
    (sample_flags : ℕ × ℕ → ℤ) : ℝ :=
  Real.sqrt ((get_covariance_sq n_frames signal_values frame_data frame_valid
    channel_indices channel_weights sample_flags : ℚ) : ℝ)

/-- The claim's `xs = sum(w*x*s)` over exactly the samples whose frame is
valid and whose sample flag is zero, for channel position `i` mapped to
channel `ch`. -/
def cov_xs_spec (n_frames : ℕ) (signal_values : ℕ → ℚ)
    (frame_data : ℕ × ℕ → ℚ) (frame_valid : ℕ → Bool)
    (channel_weights : ℕ → ℚ) (sample_flags : ℕ × ℕ → ℤ) (i ch : ℕ) : ℚ :=
  ((List.range n_frames).map fun f =>
    if frame_valid f = true ∧ sample_flags (f, ch) = 0 then
      channel_weights i * frame_data (f, ch) * signal_values f
    else 0).sum

/-- The claim's `xx = sum(w*x^2)` over valid, unflagged samples. -/
def cov_x2_spec (n_frames : ℕ) (frame_data : ℕ × ℕ → ℚ)
    (frame_valid : ℕ → Bool) (channel_weights : ℕ → ℚ)
    (sample_flags : ℕ × ℕ → ℤ) (i ch : ℕ) : ℚ :=
  ((List.range n_frames).map fun f =>
    if frame_valid f = true ∧ sample_flags (f, ch) = 0 then
      channel_weights i * frame_data (f, ch) * frame_data (f, ch)
    else 0).sum

/-- The claim's `ss = sum(w*s^2)` over valid, unflagged samples. -/
def cov_s2_spec (n_frames : ℕ) (signal_values : ℕ → ℚ)
    (frame_valid : ℕ → Bool) (channel_weights : ℕ → ℚ)
    (sample_flags : ℕ × ℕ → ℤ) (i ch : ℕ) : ℚ :=
  ((List.range n_frames).map fun f =>
    if frame_valid f = true ∧ sample_flags (f, ch) = 0 then
      channel_weights i * signal_values f * signal_values f
    else 0).sum

/-- The covariance as the claim's spec sentence describes it: the aggregate
`sqrt` of `xs^2 / (xx*ss)` taken over exactly the channels whose cross term
`xs` is *nonzero*. -/
noncomputable def get_covariance_spec (n_frames : ℕ) (signal_values : ℕ → ℚ)
    (frame_data : ℕ × ℕ → ℚ) (frame_valid : ℕ → Bool)
    (channel_indices : List ℕ) (channel_weights : ℕ → ℚ)
    (sample_flags : ℕ × ℕ → ℤ) : ℝ :=
  Real.sqrt ((((List.range channel_indices.length).map fun i =>
    if cov_xs_spec n_frames signal_values frame_data frame_valid
        channel_weights sample_flags i (channel_indices.getD i 0) ≠ 0 then
      cov_xs_spec n_frames signal_values frame_data frame_valid
          channel_weights sample_flags i (channel_indices.getD i 0)
        * cov_xs_spec n_frames signal_values frame_data frame_valid
          channel_weights sample_flags i (channel_indices.getD i 0)
        / (cov_x2_spec n_frames frame_data frame_valid channel_weights
            sample_flags i (channel_indices.getD i 0)
          * cov_s2_spec n_frames signal_values frame_valid channel_weights
            sample_flags i (channel_indices.getD i 0))
    else 0).sum : ℚ) : ℝ)

lemma enumFrom_sum_key (g : ℕ × ℕ → ℚ) (i : ℕ) :
    ∀ (l : List ℕ) (k : ℕ),
      ((l.enumFrom k).map fun p => if p.1 = i then g p else 0).sum
      = if k ≤ i ∧ i < k + l.length then g (i, l.getD (i - k) 0) else 0 := by
  intro l
  induction l with
  | nil =>
      intro k
      simp only [List.enumFrom_nil, List.map_nil, List.sum_nil,
        List.length_nil]
      have h0 : ¬ (k ≤ i ∧ i < k + 0) := by omega
      rw [if_neg h0]
  | cons a t ih =>
      intro k
      simp only [List.enumFrom_cons, List.map_cons, List.sum_cons,
        List.length_cons]
      rw [ih (k + 1)]
      by_cases hik : k = i
      · subst hik
        have h1 : ¬ (k + 1 ≤ k ∧ k < k + 1 + t.length) := by omega
        have h2 : k ≤ k ∧ k < k + (t.length + 1) := by omega
        rw [if_neg h1, if_pos h2]
        simp
      · have hik2 : ¬ ((k, a).1 = i) := hik
        rw [if_neg hik2, zero_add]
        by_cases h4 : k + 1 ≤ i ∧ i < k + 1 + t.length
        · have h5 : k ≤ i ∧ i < k + (t.length + 1) := by omega
          rw [if_pos h4, if_pos h5]
          have h6 : i - k = i - (k + 1) + 1 := by omega
          rw [h6, List.getD_cons_succ]
        · have h5 : ¬ (k ≤ i ∧ i < k + (t.length + 1)) := by omega
          rw [if_neg h4, if_neg h5]

lemma enum_sum_key (g : ℕ × ℕ → ℚ) (i : ℕ) (l : List ℕ) :
    ((l.enum.map fun p => if p.1 = i then g p else 0).sum)
      = if i < l.length then g (i, l.getD i 0) else 0 := by
  have h := enumFrom_sum_key g i l 0
  simp only [Nat.zero_add, Nat.zero_le, true_and, Nat.sub_zero] at h
  exact h

lemma cov_chan_fold_xs (signal_values : ℕ → ℚ) (frame_data : ℕ × ℕ → ℚ)
    (channel_weights : ℕ → ℚ) (sample_flags : ℕ × ℕ → ℤ) (f i : ℕ) :
    ∀ (l : List (ℕ × ℕ)) (st : CovSums),
      ((l.foldl
        (fun st p =>
          let w := channel_weights p.1
          if w = 0 then st
          else if sample_flags (f, p.2) ≠ 0 then st
          else
            let x := frame_data (f, p.2)
            { st with
                sum_x2 := addAt st.sum_x2 p.1 (w * x * x),
                sum_xs := addAt st.sum_xs p.1 (w * x * signal_values f),
                sum_s2 := addAt st.sum_s2 p.1
                  (w * signal_values f * signal_values f) })
        st).sum_xs) i
      = st.sum_xs i
        + (l.map fun p =>
            if p.1 = i ∧ channel_weights p.1 ≠ 0
                ∧ sample_flags (f, p.2) = 0 then
              channel_weights p.1 * frame_data (f, p.2) * signal_values f
            else 0).sum := by
  intro l
  induction l with
  | nil => simp
  | cons p t ih =>
      intro st
      simp only [List.foldl_cons, List.map_cons, List.sum_cons]
      rw [ih]
      by_cases hw : channel_weights p.1 = 0
      · simp [hw]
      · by_cases hfl : sample_flags (f, p.2) = 0
        · simp only [hw, ite_false, hfl, ne_eq, not_true_eq_false, if_false,
            not_false_eq_true, and_true, true_and, ite_true]
          unfold addAt
          by_cases hpi : p.1 = i
          · rw [hpi]
            simp
            ring
          · have : ¬ i = p.1 := fun h => hpi h.symm
            simp [hpi, this]
        · simp [hw, hfl]

lemma cov_chan_fold_x2 (signal_values : ℕ → ℚ) (frame_data : ℕ × ℕ → ℚ)
    (channel_weights : ℕ → ℚ) (sample_flags : ℕ × ℕ → ℤ) (f i : ℕ) :
    ∀ (l : List (ℕ × ℕ)) (st : CovSums),
      ((l.foldl
        (fun st p =>
          let w := channel_weights p.1
          if w = 0 then st
          else if sample_flags (f, p.2) ≠ 0 then st
          else
            let x := frame_data (f, p.2)
            { st with
                sum_x2 := addAt st.sum_x2 p.1 (w * x * x),
                sum_xs := addAt st.sum_xs p.1 (w * x * signal_values f),
                sum_s2 := addAt st.sum_s2 p.1
                  (w * signal_values f * signal_values f) })
        st).sum_x2) i
      = st.sum_x2 i
        + (l.map fun p =>
            if p.1 = i ∧ channel_weights p.1 ≠ 0
                ∧ sample_flags (f, p.2) = 0 then
              channel_weights p.1 * frame_data (f, p.2) * frame_data (f, p.2)
            else 0).sum := by
  intro l
  induction l with
  | nil => simp
  | cons p t ih =>
      intro st
      simp only [List.foldl_cons, List.map_cons, List.sum_cons]
      rw [ih]
      by_cases hw : channel_weights p.1 = 0
      · simp [hw]
      · by_cases hfl : sample_flags (f, p.2) = 0
        · simp only [hw, ite_false, hfl, ne_eq, not_true_eq_false, if_false,
            not_false_eq_true, and_true, true_and, ite_true]
          unfold addAt
          by_cases hpi : p.1 = i
          · rw [hpi]
            simp
            ring
          · have : ¬ i = p.1 := fun h => hpi h.symm
            simp [hpi, this]
        · simp [hw, hfl]

lemma cov_chan_fold_s2 (signal_values : ℕ → ℚ) (frame_data : ℕ × ℕ → ℚ)
    (channel_weights : ℕ → ℚ) (sample_flags : ℕ × ℕ → ℤ) (f i : ℕ) :
    ∀ (l : List (ℕ × ℕ)) (st : CovSums),
      ((l.foldl
        (fun st p =>
          let w := channel_weights p.1
          if w = 0 then st
          else if sample_flags (f, p.2) ≠ 0 then st
          else
            let x := frame_data (f, p.2)
            { st with
                sum_x2 := addAt st.sum_x2 p.1 (w * x * x),
                sum_xs := addAt st.sum_xs p.1 (w * x * signal_values f),
                sum_s2 := addAt st.sum_s2 p.1
                  (w * signal_values f * signal_values f) })
        st).sum_s2) i
      = st.sum_s2 i
        + (l.map fun p =>
            if p.1 = i ∧ channel_weights p.1 ≠ 0
                ∧ sample_flags (f, p.2) = 0 then
              channel_weights p.1 * signal_values f * signal_values f
            else 0).sum := by
  intro l
  induction l with
  | nil => simp
  | cons p t ih =>
      intro st
      simp only [List.foldl_cons, List.map_cons, List.sum_cons]
      rw [ih]
      by_cases hw : channel_weights p.1 = 0
      · simp [hw]
      · by_cases hfl : sample_flags (f, p.2) = 0
        · simp only [hw, ite_false, hfl, ne_eq, not_true_eq_false, if_false,
            not_false_eq_true, and_true, true_and, ite_true]
          unfold addAt
          by_cases hpi : p.1 = i
          · rw [hpi]
            simp
            ring
          · have : ¬ i = p.1 := fun h => hpi h.symm
            simp [hpi, this]
        · simp [hw, hfl]

lemma cov_frame_step_xs (signal_values : ℕ → ℚ) (frame_data : ℕ × ℕ → ℚ)
    (frame_valid : ℕ → Bool) (channel_indices : List ℕ)
    (channel_weights : ℕ → ℚ) (sample_flags : ℕ × ℕ → ℤ)
    (st : CovSums) (f i : ℕ) (hi : i < channel_indices.length) :
    (cov_frame_step signal_values frame_data frame_valid channel_indices
      channel_weights sample_flags st f).sum_xs i
      = st.sum_xs i
        + (if frame_valid f = true ∧ channel_weights i ≠ 0
              ∧ sample_flags (f, channel_indices.getD i 0) = 0 then
            channel_weights i * frame_data (f, channel_indices.getD i 0)
              * signal_values f
           else 0) := by
  unfold cov_frame_step
  by_cases hv : frame_valid f
  · simp only [hv, if_true]
    rw [cov_chan_fold_xs]
    have h1 : ∀ p : ℕ × ℕ,
        (if p.1 = i ∧ channel_weights p.1 ≠ 0
            ∧ sample_flags (f, p.2) = 0 then
          channel_weights p.1 * frame_data (f, p.2) * signal_values f
         else 0)
        = (if p.1 = i then
            (if channel_weights p.1 ≠ 0 ∧ sample_flags (f, p.2) = 0 then
              channel_weights p.1 * frame_data (f, p.2) * signal_values f
             else 0)
           else 0) := by
      intro p
      rw [ite_ite_zero]
    rw [List.map_congr_left fun p _ => h1 p]
    rw [enum_sum_key]
    simp [hi, hv]
  · simp [hv]

lemma cov_frame_step_x2 (signal_values : ℕ → ℚ) (frame_data : ℕ × ℕ → ℚ)
    (frame_valid : ℕ → Bool) (channel_indices : List ℕ)
    (channel_weights : ℕ → ℚ) (sample_flags : ℕ × ℕ → ℤ)
    (st : CovSums) (f i : ℕ) (hi : i < channel_indices.length) :
    (cov_frame_step signal_values frame_data frame_valid channel_indices
      channel_weights sample_flags st f).sum_x2 i
      = st.sum_x2 i
        + (if frame_valid f = true ∧ channel_weights i ≠ 0
              ∧ sample_flags (f, channel_indices.getD i 0) = 0 then
            channel_weights i * frame_data (f, channel_indices.getD i 0)
              * frame_data (f, channel_indices.getD i 0)
           else 0) := by
  unfold cov_frame_step
  by_cases hv : frame_valid f
  · simp only [hv, if_true]
    rw [cov_chan_fold_x2]
    have h1 : ∀ p : ℕ × ℕ,
        (if p.1 = i ∧ channel_weights p.1 ≠ 0
            ∧ sample_flags (f, p.2) = 0 then
          channel_weights p.1 * frame_data (f, p.2) * frame_data (f, p.2)
         else 0)
        = (if p.1 = i then
            (if channel_weights p.1 ≠ 0 ∧ sample_flags (f, p.2) = 0 then
              channel_weights p.1 * frame_data (f, p.2) * frame_data (f, p.2)
             else 0)
           else 0) := by
      intro p
      rw [ite_ite_zero]
    rw [List.map_congr_left fun p _ => h1 p]
    rw [enum_sum_key]
    simp [hi, hv]
  · simp [hv]

lemma cov_frame_step_s2 (signal_values : ℕ → ℚ) (frame_data : ℕ × ℕ → ℚ)
    (frame_valid : ℕ → Bool) (channel_indices : List ℕ)
    (channel_weights : ℕ → ℚ) (sample_flags : ℕ × ℕ → ℤ)
    (st : CovSums) (f i : ℕ) (hi : i < channel_indices.length) :
    (cov_frame_step signal_values frame_data frame_valid channel_indices
      channel_weights sample_flags st f).sum_s2 i
      = st.sum_s2 i
        + (if frame_valid f = true ∧ channel_weights i ≠ 0
              ∧ sample_flags (f, channel_indices.getD i 0) = 0 then
            channel_weights i * signal_values f * signal_values f
           else 0) := by
  unfold cov_frame_step
  by_cases hv : frame_valid f
  · simp only [hv, if_true]
    rw [cov_chan_fold_s2]
    have h1 : ∀ p : ℕ × ℕ,
        (if p.1 = i ∧ channel_weights p.1 ≠ 0
            ∧ sample_flags (f, p.2) = 0 then
          channel_weights p.1 * signal_values f * signal_values f
         else 0)
        = (if p.1 = i then
            (if channel_weights p.1 ≠ 0 ∧ sample_flags (f, p.2) = 0 then
              channel_weights p.1 * signal_values f * signal_values f
             else 0)
           else 0) := by
      intro p
      rw [ite_ite_zero]
    rw [List.map_congr_left fun p _ => h1 p]
    rw [enum_sum_key]
    simp [hi, hv]
  · simp [hv]

lemma get_cov_sums_spec (n_frames : ℕ) (signal_values : ℕ → ℚ)
    (frame_data : ℕ × ℕ → ℚ) (frame_valid : ℕ → Bool)
    (channel_indices : List ℕ) (channel_weights : ℕ → ℚ)
    (sample_flags : ℕ × ℕ → ℤ) (i : ℕ) (hi : i < channel_indices.length) :
    ((get_cov_sums n_frames signal_values frame_data frame_valid
        channel_indices channel_weights sample_flags).sum_xs i
      = cov_xs_spec n_frames signal_values frame_data frame_valid
          channel_weights sample_flags i (channel_indices.getD i 0))
    ∧ ((get_cov_sums n_frames signal_values frame_data frame_valid
        channel_indices channel_weights sample_flags).sum_x2 i
      = cov_x2_spec n_frames frame_data frame_valid channel_weights
          sample_flags i (channel_indices.getD i 0))
    ∧ ((get_cov_sums n_frames signal_values frame_data frame_valid
        channel_indices channel_weights sample_flags).sum_s2 i
      = cov_s2_spec n_frames signal_values frame_valid channel_weights
          sample_flags i (channel_indices.getD i 0)) := by
  unfold get_cov_sums cov_xs_spec cov_x2_spec cov_s2_spec
  refine ⟨?_, ?_, ?_⟩
  · have key := foldl_val_add
      (cov_frame_step signal_values frame_data frame_valid channel_indices
        channel_weights sample_flags)
      (fun st : CovSums => st.sum_xs i)
      (fun f => (if frame_valid f = true ∧ channel_weights i ≠ 0
          ∧ sample_flags (f, channel_indices.getD i 0) = 0 then
        channel_weights i * frame_data (f, channel_indices.getD i 0)
          * signal_values f
        else 0))
      (by
        intro s f
        simp only
        rw [cov_frame_step_xs _ _ _ _ _ _ _ _ _ hi])
      (List.range n_frames) ⟨fun _ => 0, fun _ => 0, fun _ => 0⟩
    refine key.trans ?_
    rw [zero_add]
    refine congrArg _ (List.map_congr_left ?_)
    intro f _
    by_cases hw : channel_weights i = 0
    · simp [hw]
    · simp only [hw, ne_eq, not_false_eq_true, true_and]
  · have key := foldl_val_add
      (cov_frame_step signal_values frame_data frame_valid channel_indices
        channel_weights sample_flags)
      (fun st : CovSums => st.sum_x2 i)
      (fun f => (if frame_valid f = true ∧ channel_weights i ≠ 0
          ∧ sample_flags (f, channel_indices.getD i 0) = 0 then
        channel_weights i * frame_data (f, channel_indices.getD i 0)
          * frame_data (f, channel_indices.getD i 0)
        else 0))
      (by
        intro s f
        simp only
        rw [cov_frame_step_x2 _ _ _ _ _ _ _ _ _ hi])
      (List.range n_frames) ⟨fun _ => 0, fun _ => 0, fun _ => 0⟩
    refine key.trans ?_
    rw [zero_add]
    refine congrArg _ (List.map_congr_left ?_)
    intro f _
    by_cases hw : channel_weights i = 0
    · simp [hw]
    · simp only [hw, ne_eq, not_false_eq_true, true_and]
  · have key := foldl_val_add
      (cov_frame_step signal_values frame_data frame_valid channel_indices
        channel_weights sample_flags)
      (fun st : CovSums => st.sum_s2 i)
      (fun f => (if frame_valid f = true ∧ channel_weights i ≠ 0
          ∧ sample_flags (f, channel_indices.getD i 0) = 0 then
        channel_weights i * signal_values f * signal_values f
        else 0))
      (by
        intro s f
        simp only
        rw [cov_frame_step_s2 _ _ _ _ _ _ _ _ _ hi])
      (List.range n_frames) ⟨fun _ => 0, fun _ => 0, fun _ => 0⟩
    refine key.trans ?_
    rw [zero_add]
    refine congrArg _ (List.map_congr_left ?_)
    intro f _
    by_cases hw : channel_weights i = 0
    · simp [hw]
    · simp only [hw, ne_eq, not_false_eq_true, true_and]

lemma get_covariance_sq_eq (n_frames : ℕ) (signal_values : ℕ → ℚ)
    (frame_data : ℕ × ℕ → ℚ) (frame_valid : ℕ → Bool)
    (channel_indices : List ℕ) (channel_weights : ℕ → ℚ)
    (sample_flags : ℕ × ℕ → ℤ) :
    get_covariance_sq n_frames signal_values frame_data frame_valid
      channel_indices channel_weights sample_flags
    = ((List.range channel_indices.length).map fun i =>
        if 0 < cov_xs_spec n_frames signal_values frame_data frame_valid
            channel_weights sample_flags i (channel_indices.getD i 0) then
          cov_xs_spec n_frames signal_values frame_data frame_valid
              channel_weights sample_flags i (channel_indices.getD i 0)
            * cov_xs_spec n_frames signal_values frame_data frame_valid
              channel_weights sample_flags i (channel_indices.getD i 0)
            / (cov_x2_spec n_frames frame_data frame_valid channel_weights
                sample_flags i (channel_indices.getD i 0)
              * cov_s2_spec n_frames signal_values frame_valid channel_weights
                sample_flags i (channel_indices.getD i 0))
        else 0).sum := by
  unfold get_covariance_sq
  have key := foldl_scalar_add
    (fun c2 i =>
      if 0 < (get_cov_sums n_frames signal_values frame_data frame_valid
          channel_indices channel_weights sample_flags).sum_xs i then
        c2 + (get_cov_sums n_frames signal_values frame_data frame_valid
            channel_indices channel_weights sample_flags).sum_xs i
          * (get_cov_sums n_frames signal_values frame_data frame_valid
            channel_indices channel_weights sample_flags).sum_xs i
          / ((get_cov_sums n_frames signal_values frame_data frame_valid
              channel_indices channel_weights sample_flags).sum_x2 i
            * (get_cov_sums n_frames signal_values frame_data frame_valid
              channel_indices channel_weights sample_flags).sum_s2 i)
      else c2)
    (fun i =>
      if 0 < (get_cov_sums n_frames signal_values frame_data frame_valid
          channel_indices channel_weights sample_flags).sum_xs i then
        (get_cov_sums n_frames signal_values frame_data frame_valid
            channel_indices channel_weights sample_flags).sum_xs i
          * (get_cov_sums n_frames signal_values frame_data frame_valid
            channel_indices channel_weights sample_flags).sum_xs i
          / ((get_cov_sums n_frames signal_values frame_data frame_valid
              channel_indices channel_weights sample_flags).sum_x2 i
            * (get_cov_sums n_frames signal_values frame_data frame_valid
              channel_indices channel_weights sample_flags).sum_s2 i)
      else 0)
    (by
      intro s i
      by_cases h : 0 < (get_cov_sums n_frames signal_values frame_data
          frame_valid channel_indices channel_weights sample_flags).sum_xs i
      · simp [h]
      · simp [h])
    (List.range channel_indices.length) 0
  refine key.trans ?_
  rw [zero_add]
  refine congrArg _ (List.map_congr_left ?_)
  intro i hmem
  have hi : i < channel_indices.length := List.mem_range.mp hmem
  have hs := get_cov_sums_spec n_frames signal_values frame_data frame_valid
    channel_indices channel_weights sample_flags i hi
  rw [hs.1, hs.2.1, hs.2.2]

/-- Counterexample to claim C9 as stated: the code only includes channels
whose cross term `xs` is strictly *positive* (`if xs > 0`), not merely
nonzero.  With one channel whose cross term is `-1` (and `xx = ss = 1`),
`get_covariance` returns `sqrt 0 = 0` while the claim's formula over
channels with nonzero cross term gives `sqrt 1 = 1`. -/
theorem c9_counterexample :
    get_covariance 1 (fun _ => 1) (fun _ => (-1)) (fun _ => true) [0]
      (fun _ => 1) (fun _ => 0)
    ≠ get_covariance_spec 1 (fun _ => 1) (fun _ => (-1)) (fun _ => true) [0]
      (fun _ => 1) (fun _ => 0) := by
  have hr : List.range 1 = [0] := by decide
  have h1 : get_covariance_sq 1 (fun _ => 1) (fun _ => (-1)) (fun _ => true)
      [0] (fun _ => 1) (fun _ => 0) = 0 := by
    rw [get_covariance_sq_eq]
    norm_num [cov_xs_spec, hr]
  unfold get_covariance get_covariance_spec
  rw [h1]
  norm_num [cov_xs_spec, cov_x2_spec, cov_s2_spec, hr, Real.sqrt_zero,
    Real.sqrt_one]

/-- Claim C9, amended: `get_covariance` computes, per included channel,
`xs = sum(w*x*s)`, `xx = sum(w*x^2)` and `ss = sum(w*s^2)` over the samples
whose frame is valid and whose sample flag is zero, and returns the
aggregate square root of the sum of `xs^2 / (xx*ss)` taken over exactly the
channels whose cross term `xs` is strictly positive (not merely nonzero). -/
theorem c9_covariance_amended (n_frames : ℕ) (signal_values : ℕ → ℚ)
    (frame_data : ℕ × ℕ → ℚ) (frame_valid : ℕ → Bool)
    (channel_indices : List ℕ) (channel_weights : ℕ → ℚ)
    (sample_flags : ℕ × ℕ → ℤ) :
    get_covariance n_frames signal_values frame_data frame_valid
      channel_indices channel_weights sample_flags
    = Real.sqrt ((((List.range channel_indices.length).map fun i =>
        if 0 < cov_xs_spec n_frames signal_values frame_data frame_valid
            channel_weights sample_flags i (channel_indices.getD i 0) then
          cov_xs_spec n_frames signal_values frame_data frame_valid
              channel_weights sample_flags i (channel_indices.getD i 0)
            * cov_xs_spec n_frames signal_values frame_data frame_valid
              channel_weights sample_flags i (channel_indices.getD i 0)
            / (cov_x2_spec n_frames frame_data frame_valid channel_weights
                sample_flags i (channel_indices.getD i 0)
              * cov_s2_spec n_frames signal_values frame_valid channel_weights
                sample_flags i (channel_indices.getD i 0))
        else 0).sum : ℚ) : ℝ) := by
  unfold get_covariance
  rw [get_covariance_sq_eq]

/-! ### NaN-aware embedding for the claims about NaN handling.

`FQ` idealises an IEEE double as either NaN or an exact rational.  Arithmetic
on finite values is exact; NaN is absorbing for `+`, `*`, `/`.  An IEEE
comparison `x == 0` is false when `x` is NaN (`FQ.eqZero`).  Finite division
by zero is mapped to NaN (in IEEE it gives an infinity for a nonzero
numerator, but every division in these kernels is guarded by an `== 0` test
on the divisor, so the case is unexercised). -/

inductive FQ where
  | nan : FQ
  | val : ℚ → FQ
deriving DecidableEq

/-- `np.isnan`. -/
def FQ.isNan : FQ → Bool
  | .nan => true
  | .val _ => false

/-- The IEEE comparison `x == 0` (false for NaN). -/
def FQ.eqZero : FQ → Bool
  | .nan => false
  | .val q => q == 0

instance : Add FQ :=
  ⟨fun a b => match a, b with
    | .val x, .val y => .val (x + y)
    | _, _ => .nan⟩

instance : Mul FQ :=
  ⟨fun a b => match a, b with
    | .val x, .val y => .val (x * y)
    | _, _ => .nan⟩

instance : Div FQ :=
  ⟨fun a b => match a, b with
    | .val x, .val y => if y = 0 then .nan else .val (x / y)
    | _, _ => .nan⟩

lemma fq_add_finite {a b : FQ} (ha : a.isNan = false) (hb : b.isNan = false) :
    (a + b).isNan = false := by
  cases a with
  | nan => simp [FQ.isNan] at ha
  | val x =>
      cases b with
      | nan => simp [FQ.isNan] at hb
      | val y => rfl

lemma fq_mul_finite {a b : FQ} (ha : a.isNan = false) (hb : b.isNan = false) :
    (a * b).isNan = false := by
  cases a with
  | nan => simp [FQ.isNan] at ha
  | val x =>
      cases b with
      | nan => simp [FQ.isNan] at hb
      | val y => rfl

lemma fq_div_finite {a b : FQ} (ha : a.isNan = false) (hb : b.isNan = false)
    (hz : b.eqZero = false) : (a / b).isNan = false := by
  cases a with
  | nan => simp [FQ.isNan] at ha
  | val x =>
      cases b with
      | nan => simp [FQ.isNan] at hb
      | val y =>
          have hy : ¬ y = 0 := by
            simp [FQ.eqZero] at hz
            exact hz
          show ((FQ.val x) / (FQ.val y)).isNan = false
          simp only [HDiv.hDiv, Div.div]
          rw [if_neg hy]
          rfl

/-- `get_signal_variance` (source lines 20-59) over the NaN-aware carrier:
`v = sum(w*x^2)/sum(w)` skipping NaN *values* (there is no NaN check on the
weights), with 0 returned when the accumulated weight compares equal to
zero. -/
def variance_sums (n : ℕ) (values : ℕ → FQ)
    (weights : Option (ℕ → FQ)) : FQ × FQ :=
  (List.range n).foldl
    (fun (acc : FQ × FQ) i =>
      let v := values i
      if v.isNan then acc
      else
        let w := match weights with
          | some wf => wf i
          | none => FQ.val 1
        (acc.1 + v * v * w, acc.2 + w))
    (FQ.val 0, FQ.val 0)

def get_signal_variance (n : ℕ) (values : ℕ → FQ)
    (weights : Option (ℕ → FQ)) : FQ :=
  let p := variance_sums n values weights
  if p.2.eqZero then FQ.val 0 else p.1 / p.2

/-- The per-block accumulation of `get_ml_correlated` over the NaN-aware
carrier: identical loop structure to `ml_block_sums`, with the `fw == 0`
skip rendered as the IEEE comparison (false for NaN, so NaN weights are NOT
skipped, exactly as in the source, which has no NaN checks). -/
def ml_block_sums_nan (frame_data : ℕ × ℕ → FQ) (frame_weights : ℕ → FQ)
    (frame_valid : ℕ → Bool) (channel_indices : List ℕ)
    (channel_wg channel_wg2 : ℕ → FQ) (sample_flags : ℕ × ℕ → ℤ)
    (r block : ℕ) : FQ × FQ :=
  (List.range' (block * r) r).foldl
    (fun acc frame_index =>
      if frame_valid frame_index then
        let fw := frame_weights frame_index
        if fw.eqZero then acc
        else
          channel_indices.enum.foldl
            (fun acc2 p =>
              if sample_flags (frame_index, p.2) ≠ 0 then acc2
              else
                (acc2.1 + fw * channel_wg p.1 * frame_data (frame_index, p.2),
                 acc2.2 + fw * channel_wg2 p.1))
            acc
      else acc)
    (FQ.val 0, FQ.val 0)

/-- `get_ml_correlated` (source lines 62-137) over the NaN-aware carrier. -/
def get_ml_correlated_nan (n_frames : ℕ) (frame_data : ℕ × ℕ → FQ)
    (frame_weights : ℕ → FQ) (frame_valid : ℕ → Bool)
    (channel_indices : List ℕ) (channel_wg channel_wg2 : ℕ → FQ)
    (sample_flags : ℕ × ℕ → ℤ) (resolution : ℤ) : List FQ × List FQ :=
  let r := clamp_resolution resolution
  let n_blocks := roundup_ratio n_frames r
  let block_value : ℕ → FQ × FQ := fun block =>
    let s := ml_block_sums_nan frame_data frame_weights frame_valid
      channel_indices channel_wg channel_wg2 sample_flags r block
    if s.2.eqZero then (FQ.val 0, FQ.val 0) else (s.1 / s.2, s.2)
  ((List.range n_blocks).map fun b => (block_value b).1,
   (List.range n_blocks).map fun b => (block_value b).2)

lemma variance_fold_finite (values : ℕ → FQ) (weights : Option (ℕ → FQ)) :
    ∀ (l : List ℕ) (acc : FQ × FQ),
      (∀ i ∈ l, (match weights with
        | some wf => wf i
        | none => FQ.val 1).isNan = false) →
      acc.1.isNan = false → acc.2.isNan = false →
      ((l.foldl
        (fun (acc : FQ × FQ) i =>
          let v := values i
          if v.isNan then acc
          else
            let w := match weights with
              | some wf => wf i
              | none => FQ.val 1
            (acc.1 + v * v * w, acc.2 + w))
        acc).1.isNan = false
      ∧ (l.foldl
        (fun (acc : FQ × FQ) i =>
          let v := values i
          if v.isNan then acc
          else
            let w := match weights with
              | some wf => wf i
              | none => FQ.val 1
            (acc.1 + v * v * w, acc.2 + w))
        acc).2.isNan = false) := by
  intro l
  induction l with
  | nil =>
      intro acc _ h1 h2
      exact ⟨h1, h2⟩
  | cons i t ih =>
      intro acc hw h1 h2
      simp only [List.foldl_cons]
      by_cases hv : (values i).isNan
      · simp only [hv, ite_true]
        exact ih acc (fun j hj => hw j (List.mem_cons_of_mem _ hj)) h1 h2
      · simp only [hv, ite_false, Bool.false_eq_true]
        have hwi := hw i (List.mem_cons_self i t)
        have hvfin : (values i).isNan = false := by
          cases h : (values i).isNan
          · rfl
          · exact absurd h hv
        refine ih _ (fun j hj => hw j (List.mem_cons_of_mem _ hj)) ?_ ?_
        · exact fq_add_finite h1 (fq_mul_finite (fq_mul_finite hvfin hvfin) hwi)
        · exact fq_add_finite h2 hwi

lemma variance_sums_finite (n : ℕ) (values : ℕ → FQ)
    (weights : Option (ℕ → FQ))
    (hw : ∀ i, i < n → (match weights with
      | some wf => wf i
      | none => FQ.val 1).isNan = false) :
    (variance_sums n values weights).1.isNan = false
    ∧ (variance_sums n values weights).2.isNan = false := by
  unfold variance_sums
  exact variance_fold_finite values weights (List.range n)
    (FQ.val 0, FQ.val 0) (fun i hi => hw i (List.mem_range.mp hi)) rfl rfl

lemma get_signal_variance_finite (n : ℕ) (values : ℕ → FQ)
    (weights : Option (ℕ → FQ))
    (hw : ∀ i, i < n → (match weights with
      | some wf => wf i
      | none => FQ.val 1).isNan = false) :
    (get_signal_variance n values weights).isNan = false := by
  unfold get_signal_variance
  have hfold := variance_sums_finite n values weights hw
  by_cases hz : (variance_sums n values weights).2.eqZero
  · simp only [hz, ite_true]
    rfl
  · simp only [hz, ite_false, Bool.false_eq_true]
    refine fq_div_finite hfold.1 hfold.2 ?_
    cases h : (variance_sums n values weights).2.eqZero
    · rfl
    · exact absurd h hz

lemma ml_chan_fold_nan_finite (fw : FQ) (frame_data : ℕ × ℕ → FQ)
    (channel_wg channel_wg2 : ℕ → FQ) (sample_flags : ℕ × ℕ → ℤ)
    (frame_index : ℕ) (hfw : fw.isNan = false)
    (hdata : ∀ x, (frame_data x).isNan = false)
    (hwg : ∀ i, (channel_wg i).isNan = false)
    (hwg2 : ∀ i, (channel_wg2 i).isNan = false) :
    ∀ (l : List (ℕ × ℕ)) (acc : FQ × FQ),
      acc.1.isNan = false → acc.2.isNan = false →
      ((l.foldl
        (fun (acc2 : FQ × FQ) p =>
          if sample_flags (frame_index, p.2) ≠ 0 then acc2
          else
            (acc2.1 + fw * channel_wg p.1 * frame_data (frame_index, p.2),
             acc2.2 + fw * channel_wg2 p.1))
        acc).1.isNan = false
      ∧ (l.foldl
        (fun (acc2 : FQ × FQ) p =>
          if sample_flags (frame_index, p.2) ≠ 0 then acc2
          else
            (acc2.1 + fw * channel_wg p.1 * frame_data (frame_index, p.2),
             acc2.2 + fw * channel_wg2 p.1))
        acc).2.isNan = false) := by
  intro l
  induction l with
  | nil =>
      intro acc h1 h2
      exact ⟨h1, h2⟩
  | cons p t ih =>
      intro acc h1 h2
      simp only [List.foldl_cons]
      by_cases hfl : sample_flags (frame_index, p.2) ≠ 0
      · rw [if_pos hfl]
        exact ih acc h1 h2
      · rw [if_neg hfl]
        refine ih _ ?_ ?_
        · exact fq_add_finite h1
            (fq_mul_finite (fq_mul_finite hfw (hwg p.1)) (hdata _))
        · exact fq_add_finite h2 (fq_mul_finite hfw (hwg2 p.1))

lemma ml_block_sums_nan_finite (frame_data : ℕ × ℕ → FQ)
    (frame_weights : ℕ → FQ) (frame_valid : ℕ → Bool)
    (channel_indices : List ℕ) (channel_wg channel_wg2 : ℕ → FQ)
    (sample_flags : ℕ × ℕ → ℤ) (r block : ℕ)
    (hdata : ∀ x, (frame_data x).isNan = false)
    (hfw : ∀ f, (frame_weights f).isNan = false)
    (hwg : ∀ i, (channel_wg i).isNan = false)
    (hwg2 : ∀ i, (channel_wg2 i).isNan = false) :
    (ml_block_sums_nan frame_data frame_weights frame_valid channel_indices
      channel_wg channel_wg2 sample_flags r block).1.isNan = false
    ∧ (ml_block_sums_nan frame_data frame_weights frame_valid channel_indices
      channel_wg channel_wg2 sample_flags r block).2.isNan = false := by
  unfold ml_block_sums_nan
  generalize List.range' (block * r) r = l
  suffices h : ∀ (l : List ℕ) (acc : FQ × FQ),
      acc.1.isNan = false → acc.2.isNan = false →
      ((l.foldl
        (fun (acc : FQ × FQ) frame_index =>
          if frame_valid frame_index then
            let fw := frame_weights frame_index
            if fw.eqZero then acc
            else
              channel_indices.enum.foldl
                (fun (acc2 : FQ × FQ) p =>
                  if sample_flags (frame_index, p.2) ≠ 0 then acc2
                  else
                    (acc2.1 + fw * channel_wg p.1
                      * frame_data (frame_index, p.2),
                     acc2.2 + fw * channel_wg2 p.1))
                acc
          else acc)
        acc).1.isNan = false
      ∧ (l.foldl
        (fun (acc : FQ × FQ) frame_index =>
          if frame_valid frame_index then
            let fw := frame_weights frame_index
            if fw.eqZero then acc
            else
              channel_indices.enum.foldl
                (fun (acc2 : FQ × FQ) p =>
                  if sample_flags (frame_index, p.2) ≠ 0 then acc2
                  else
                    (acc2.1 + fw * channel_wg p.1
                      * frame_data (frame_index, p.2),
                     acc2.2 + fw * channel_wg2 p.1))
                acc
          else acc)
        acc).2.isNan = false) by
    exact h l (FQ.val 0, FQ.val 0) rfl rfl
  intro l
  induction l with
  | nil =>
      intro acc h1 h2
      exact ⟨h1, h2⟩
  | cons f t ih =>
      intro acc h1 h2
      simp only [List.foldl_cons]
      by_cases hv : frame_valid f
      · simp only [hv, if_true]
        by_cases hz : (frame_weights f).eqZero
        · simp only [hz, ite_true]
          exact ih acc h1 h2
        · simp only [hz, ite_false, Bool.false_eq_true]
          have hchan := ml_chan_fold_nan_finite (frame_weights f) frame_data
            channel_wg channel_wg2 sample_flags f (hfw f) hdata hwg hwg2
            channel_indices.enum acc h1 h2
          exact ih _ hchan.1 hchan.2
      · simp only [hv, if_false, Bool.false_eq_true]
        exact ih acc h1 h2

/-- Counterexample to claim C6 as stated: `get_signal_variance` checks
`np.isnan` only on the *values*, not on the weights; a NaN weight enters
both accumulators and the result is NaN. -/
theorem c6_counterexample :
    (get_signal_variance 1 (fun _ => FQ.val 1)
      (some fun _ => FQ.nan)).isNan = true := by
  decide

/-- Claim C6, amended: NaN is never *generated* by these kernels, only
propagated.  `get_signal_variance` skips NaN values, so its result is
non-NaN whenever every weight (when given) is non-NaN — even if some values
are NaN; with no weights the result is always non-NaN.  `get_ml_correlated`
has no NaN checks at all, but its block outputs are non-NaN whenever the
frame data, frame weights and channel factors are all non-NaN.  (A NaN
weight in `get_signal_variance`, or NaN frame data/weights in
`get_ml_correlated`, does propagate into the outputs, contrary to the
original claim.) -/
theorem c6_nan_propagation_amended :
    (∀ (n : ℕ) (values : ℕ → FQ) (wf : ℕ → FQ),
      (∀ i, i < n → (wf i).isNan = false) →
      (get_signal_variance n values (some wf)).isNan = false)
    ∧ (∀ (n : ℕ) (values : ℕ → FQ),
      (get_signal_variance n values none).isNan = false)
    ∧ (∀ (n_frames : ℕ) (frame_data : ℕ × ℕ → FQ) (frame_weights : ℕ → FQ)
        (frame_valid : ℕ → Bool) (channel_indices : List ℕ)
        (channel_wg channel_wg2 : ℕ → FQ) (sample_flags : ℕ × ℕ → ℤ)
        (resolution : ℤ) (b : ℕ),
      (∀ x, (frame_data x).isNan = false) →
      (∀ f, (frame_weights f).isNan = false) →
      (∀ i, (channel_wg i).isNan = false) →
      (∀ i, (channel_wg2 i).isNan = false) →
      ((get_ml_correlated_nan n_frames frame_data frame_weights frame_valid
        channel_indices channel_wg channel_wg2 sample_flags
        resolution).1.getD b (FQ.val 0)).isNan = false
      ∧ ((get_ml_correlated_nan n_frames frame_data frame_weights frame_valid
        channel_indices channel_wg channel_wg2 sample_flags
        resolution).2.getD b (FQ.val 0)).isNan = false) := by
  refine ⟨?_, ?_, ?_⟩
  · intro n values wf hw
    exact get_signal_variance_finite n values (some wf) hw
  · intro n values
    exact get_signal_variance_finite n values none (fun i _ => rfl)
  · intro n_frames frame_data frame_weights frame_valid channel_indices
      channel_wg channel_wg2 sample_flags resolution b hdata hfw hwg hwg2
    have hsums := ml_block_sums_nan_finite frame_data frame_weights
      frame_valid channel_indices channel_wg channel_wg2 sample_flags
      (clamp_resolution resolution) b hdata hfw hwg hwg2
    unfold get_ml_correlated_nan
    by_cases hb : b < roundup_ratio n_frames (clamp_resolution resolution)
    · rw [getD_map_range _ hb, getD_map_range _ hb]
      constructor
      · by_cases hz : (ml_block_sums_nan frame_data frame_weights frame_valid
            channel_indices channel_wg channel_wg2 sample_flags
            (clamp_resolution resolution) b).2.eqZero
        · simp only [hz, ite_true]
          rfl
        · simp only [hz, ite_false, Bool.false_eq_true]
          refine fq_div_finite hsums.1 hsums.2 ?_
          cases h : (ml_block_sums_nan frame_data frame_weights frame_valid
              channel_indices channel_wg channel_wg2 sample_flags
              (clamp_resolution resolution) b).2.eqZero
          · rfl
          · exact absurd h hz
      · by_cases hz : (ml_block_sums_nan frame_data frame_weights frame_valid
            channel_indices channel_wg channel_wg2 sample_flags
            (clamp_resolution resolution) b).2.eqZero
        · simp only [hz, ite_true]
          rfl
        · simp only [hz, ite_false, Bool.false_eq_true]
          exact hsums.2
    · have hlen1 : ((List.range (roundup_ratio n_frames
          (clamp_resolution resolution))).map (fun b2 =>
            (if (ml_block_sums_nan frame_data frame_weights frame_valid
              channel_indices channel_wg channel_wg2 sample_flags
              (clamp_resolution resolution) b2).2.eqZero then
              ((FQ.val 0), (FQ.val 0))
             else
              ((ml_block_sums_nan frame_data frame_weights frame_valid
                channel_indices channel_wg channel_wg2 sample_flags
                (clamp_resolution resolution) b2).1
                / (ml_block_sums_nan frame_data frame_weights frame_valid
                  channel_indices channel_wg channel_wg2 sample_flags
                  (clamp_resolution resolution) b2).2,
               (ml_block_sums_nan frame_data frame_weights frame_valid
                channel_indices channel_wg channel_wg2 sample_flags
                (clamp_resolution resolution) b2).2)).1)).length ≤ b := by
        simp only [List.length_map, List.length_range]
        omega
      constructor
      · rw [List.getD_eq_default _ _ hlen1]
        rfl
      · rw [List.getD_eq_default _ _ (by
          simp only [List.length_map, List.length_range]
          omega)]
        rfl

theorem c6_witness :
    (get_signal_variance 1 (fun _ => FQ.nan) (some fun _ => FQ.val 1)).isNan
      = false
    ∧ ((get_ml_correlated_nan 1 (fun _ => FQ.val 2) (fun _ => FQ.val 1)
        (fun _ => true) [0] (fun _ => FQ.val 1) (fun _ => FQ.val 1)
        (fun _ => 0) 1).1.getD 0 (FQ.val 0)).isNan = false := by
  constructor
  · exact c6_nan_propagation_amended.1 1 (fun _ => FQ.nan)
      (fun _ => FQ.val 1) (fun i _ => rfl)
  · exact (c6_nan_propagation_amended.2.2 1 (fun _ => FQ.val 2)
      (fun _ => FQ.val 1) (fun _ => true) [0] (fun _ => FQ.val 1)
      (fun _ => FQ.val 1) (fun _ => 0) 1 0 (fun _ => rfl) (fun _ => rfl)
      (fun _ => rfl) (fun _ => rfl)).1

/-! ### Frame-index access traces of the block-structured kernels (claim C7).

Derived from the loop structure of the source: each kernel's per-block frame
loop runs over `range(block * resolution, block * resolution + resolution)`
with no clamping to `n_frames`.  `get_ml_correlated` reads
`frame_valid[frame_index]` unconditionally for every such index of every
block; `resync_gains` skips blocks whose signal value compares equal to 0;
`apply_gain_increments` skips blocks with `dw <= 0`. -/

def ml_accessed_frames (n_frames : ℕ) (resolution : ℤ) : List ℕ :=
  let r := clamp_resolution resolution
  (List.range (roundup_ratio n_frames r)).flatMap
    (fun b => List.range' (b * r) r)

def resync_accessed_frames (n_frames : ℕ) (resolution : ℤ)
    (signal_values : ℕ → ℚ) : List ℕ :=
  let r := clamp_resolution resolution
  (List.range (roundup_ratio n_frames r)).flatMap
    (fun b => if signal_values b = 0 then [] else List.range' (b * r) r)

def apply_accessed_frames (n_frames : ℕ) (resolution : ℤ)
    (increment_weight : ℕ → ℚ) : List ℕ :=
  let r := clamp_resolution resolution
  (List.range (roundup_ratio n_frames r)).flatMap
    (fun b => if increment_weight b ≤ 0 then [] else List.range' (b * r) r)

lemma mem_ml_accessed (n_frames : ℕ) (resolution : ℤ) (f : ℕ) :
    f ∈ ml_accessed_frames n_frames resolution
      ↔ f < roundup_ratio n_frames (clamp_resolution resolution)
          * clamp_resolution resolution := by
  unfold ml_accessed_frames
  set r := clamp_resolution resolution with hrdef
  have hr : 0 < r := clamp_resolution_pos resolution
  set N := roundup_ratio n_frames r with hN
  rw [List.mem_flatMap]
  constructor
  · rintro ⟨b, hb, hf⟩
    rw [List.mem_range] at hb
    rw [List.mem_range'_1] at hf
    have h2 : (b + 1) * r ≤ N * r := Nat.mul_le_mul_right _ (by omega)
    have h3 : (b + 1) * r = b * r + r := by ring
    omega
  · intro hf
    refine ⟨f / r, ?_, ?_⟩
    · rw [List.mem_range]
      exact Nat.div_lt_of_lt_mul (by
        rw [Nat.mul_comm] at hf
        exact hf)
    · rw [List.mem_range'_1]
      have h1 := Nat.div_add_mod f r
      have h2 : f % r < r := Nat.mod_lt _ hr
      have h3 : r * (f / r) = (f / r) * r := by ring
      omega

lemma mem_accessed_guard {g : ℕ → List ℕ} {N f : ℕ}
    (h : f ∈ (List.range N).flatMap g) :
    ∃ b, b < N ∧ f ∈ g b := by
  rw [List.mem_flatMap] at h
  obtain ⟨b, hb, hf⟩ := h
  exact ⟨b, List.mem_range.mp hb, hf⟩

/-- Counterexample to claim C7 as stated: for `resync_gains` with
`n_frames = 1`, `resolution = 2` and an all-zero signal, every block is
skipped, so every access is (vacuously) in bounds, yet the clamped
resolution 2 does not divide `n_frames = 1` — the claimed equivalence
fails. -/
theorem c7_counterexample :
    ¬ ((∀ f ∈ resync_accessed_frames 1 2 (fun _ => 0), f < 1)
      ↔ (clamp_resolution 2 ∣ 1)) := by
  intro hcon
  have h1 : ∀ f ∈ resync_accessed_frames 1 2 (fun _ => 0), f < 1 := by
    intro f hf
    obtain ⟨b, hb, hfb⟩ := mem_accessed_guard hf
    rw [if_pos rfl] at hfb
    exact absurd hfb (List.not_mem_nil f)
  have h2 := hcon.mp h1
  have h3 : clamp_resolution 2 = 2 := by decide
  rw [h3] at h2
  omega

/-- Claim C7, amended: in the block-structured kernels the per-block frame
loop runs from `block*resolution` to `block*resolution + resolution` without
clamping to `n_frames`.  For `get_ml_correlated`, which reads `frame_valid`
unconditionally, every accessed frame index is in bounds *iff* the clamped
resolution divides `n_frames`; when it does not, every index from `n_frames`
up to `n_blocks*resolution - 1` is read.  For `resync_gains` and
`apply_gain_increments` the forward direction still holds (divisibility
keeps all accesses in bounds), and the out-of-bounds reads of the last
block occur provided that block is not skipped by its guard (signal value
nonzero, respectively increment weight positive) — but not in general,
since an input whose guards skip the last block accesses nothing out of
bounds (the counterexample). -/
theorem c7_bounds_amended :
    (∀ (n_frames : ℕ) (resolution : ℤ),
      (∀ f ∈ ml_accessed_frames n_frames resolution, f < n_frames)
        ↔ clamp_resolution resolution ∣ n_frames)
    ∧ (∀ (n_frames : ℕ) (resolution : ℤ) (signal_values : ℕ → ℚ),
        clamp_resolution resolution ∣ n_frames →
        ∀ f ∈ resync_accessed_frames n_frames resolution signal_values,
          f < n_frames)
    ∧ (∀ (n_frames : ℕ) (resolution : ℤ) (increment_weight : ℕ → ℚ),
        clamp_resolution resolution ∣ n_frames →
        ∀ f ∈ apply_accessed_frames n_frames resolution increment_weight,
          f < n_frames)
    ∧ (∀ (n_frames : ℕ) (resolution : ℤ) (f : ℕ),
        n_frames ≤ f →
        f < roundup_ratio n_frames (clamp_resolution resolution)
          * clamp_resolution resolution →
        f ∈ ml_accessed_frames n_frames resolution)
    ∧ (∀ (n_frames : ℕ) (resolution : ℤ) (signal_values : ℕ → ℚ) (f : ℕ),
        signal_values
          (roundup_ratio n_frames (clamp_resolution resolution) - 1) ≠ 0 →
        n_frames ≤ f →
        f < roundup_ratio n_frames (clamp_resolution resolution)
          * clamp_resolution resolution →
        f ∈ resync_accessed_frames n_frames resolution signal_values)
    ∧ (∀ (n_frames : ℕ) (resolution : ℤ) (increment_weight : ℕ → ℚ) (f : ℕ),
        0 < increment_weight
          (roundup_ratio n_frames (clamp_resolution resolution) - 1) →
        n_frames ≤ f →
        f < roundup_ratio n_frames (clamp_resolution resolution)
          * clamp_resolution resolution →
        f ∈ apply_accessed_frames n_frames resolution increment_weight) := by
  have hlast : ∀ (n_frames : ℕ) (resolution : ℤ) (f : ℕ),
      n_frames ≤ f →
      f < roundup_ratio n_frames (clamp_resolution resolution)
        * clamp_resolution resolution →
      (roundup_ratio n_frames (clamp_resolution resolution) - 1)
          * clamp_resolution resolution ≤ f
        ∧ f < (roundup_ratio n_frames (clamp_resolution resolution) - 1)
          * clamp_resolution resolution + clamp_resolution resolution
        ∧ roundup_ratio n_frames (clamp_resolution resolution) - 1
          < roundup_ratio n_frames (clamp_resolution resolution) := by
    intro n resolution f h1 h2
    set r := clamp_resolution resolution with hrdef
    have hr : 0 < r := clamp_resolution_pos resolution
    set N := roundup_ratio n r with hN
    have hN1 : 1 ≤ N := by
      by_contra hcon
      have : N = 0 := by omega
      rw [this] at h2
      omega
    have hsub : (N - 1) * r + r = N * r := by
      have : N - 1 + 1 = N := by omega
      calc (N - 1) * r + r = (N - 1 + 1) * r := by ring
        _ = N * r := by rw [this]
    have hlt := roundup_ratio_lt n r hr
    rw [← hN] at hlt
    have hcomm : r * N = N * r := by ring
    omega
  refine ⟨?_, ?_, ?_, ?_, ?_, ?_⟩
  · intro n resolution
    constructor
    · intro h
      have hr : 0 < clamp_resolution resolution :=
        clamp_resolution_pos resolution
      rw [← roundup_ratio_mul_eq_iff n _ hr]
      by_contra hne
      have hle := roundup_ratio_le n _ hr
      have hlt2 : n < clamp_resolution resolution
          * roundup_ratio n (clamp_resolution resolution) := by omega
      have hmem : n ∈ ml_accessed_frames n resolution := by
        rw [mem_ml_accessed]
        have : clamp_resolution resolution
            * roundup_ratio n (clamp_resolution resolution)
          = roundup_ratio n (clamp_resolution resolution)
            * clamp_resolution resolution := by ring
        omega
      exact absurd (h n hmem) (by omega)
    · intro hdvd f hf
      rw [mem_ml_accessed] at hf
      have hr : 0 < clamp_resolution resolution :=
        clamp_resolution_pos resolution
      have heq := (roundup_ratio_mul_eq_iff n _ hr).mpr hdvd
      have : clamp_resolution resolution
          * roundup_ratio n (clamp_resolution resolution)
        = roundup_ratio n (clamp_resolution resolution)
          * clamp_resolution resolution := by ring
      omega
  · intro n resolution sv hdvd f hf
    obtain ⟨b, hb, hfb⟩ := mem_accessed_guard hf
    by_cases hz : sv b = 0
    · rw [if_pos hz] at hfb
      exact absurd hfb (List.not_mem_nil f)
    · rw [if_neg hz, List.mem_range'_1] at hfb
      have hr : 0 < clamp_resolution resolution :=
        clamp_resolution_pos resolution
      have heq := (roundup_ratio_mul_eq_iff n _ hr).mpr hdvd
      have h2 : (b + 1) * clamp_resolution resolution
          ≤ roundup_ratio n (clamp_resolution resolution)
            * clamp_resolution resolution :=
        Nat.mul_le_mul_right _ (by omega)
      have h3 : (b + 1) * clamp_resolution resolution
          = b * clamp_resolution resolution + clamp_resolution resolution := by
        ring
      have h4 : clamp_resolution resolution
          * roundup_ratio n (clamp_resolution resolution)
        = roundup_ratio n (clamp_resolution resolution)
          * clamp_resolution resolution := by ring
      omega
  · intro n resolution dw hdvd f hf
    obtain ⟨b, hb, hfb⟩ := mem_accessed_guard hf
    by_cases hz : dw b ≤ 0
    · rw [if_pos hz] at hfb
      exact absurd hfb (List.not_mem_nil f)
    · rw [if_neg hz, List.mem_range'_1] at hfb
      have hr : 0 < clamp_resolution resolution :=
        clamp_resolution_pos resolution
      have heq := (roundup_ratio_mul_eq_iff n _ hr).mpr hdvd
      have h2 : (b + 1) * clamp_resolution resolution
          ≤ roundup_ratio n (clamp_resolution resolution)
            * clamp_resolution resolution :=
        Nat.mul_le_mul_right _ (by omega)
      have h3 : (b + 1) * clamp_resolution resolution
          = b * clamp_resolution resolution + clamp_resolution resolution := by
        ring
      have h4 : clamp_resolution resolution
          * roundup_ratio n (clamp_resolution resolution)
        = roundup_ratio n (clamp_resolution resolution)
          * clamp_resolution resolution := by ring
      omega
  · intro n resolution f h1 h2
    rw [mem_ml_accessed]
    exact h2
  · intro n resolution sv f hz h1 h2
    obtain ⟨ha, hb, hc⟩ := hlast n resolution f h1 h2
    unfold resync_accessed_frames
    rw [List.mem_flatMap]
    refine ⟨roundup_ratio n (clamp_resolution resolution) - 1, ?_, ?_⟩
    · rw [List.mem_range]
      exact hc
    · rw [if_neg hz, List.mem_range'_1]
      exact ⟨ha, hb⟩
  · intro n resolution dw f hz h1 h2
    obtain ⟨ha, hb, hc⟩ := hlast n resolution f h1 h2
    unfold apply_accessed_frames
    rw [List.mem_flatMap]
    refine ⟨roundup_ratio n (clamp_resolution resolution) - 1, ?_, ?_⟩
    · rw [List.mem_range]
      exact hc
    · rw [if_neg (not_le.mpr hz), List.mem_range'_1]
      exact ⟨ha, hb⟩

theorem c7_witness :
    ((∀ f ∈ ml_accessed_frames 3 2, f < 3) ↔ (clamp_resolution 2 ∣ 3))
    ∧ (∀ f ∈ resync_accessed_frames 4 2 (fun _ => 1), f < 4)
    ∧ (∀ f ∈ apply_accessed_frames 4 2 (fun _ => 1), f < 4)
    ∧ (3 ∈ ml_accessed_frames 3 2)
    ∧ (3 ∈ resync_accessed_frames 3 2 (fun _ => 1))
    ∧ (3 ∈ apply_accessed_frames 3 2 (fun _ => 1)) :=
  ⟨c7_bounds_amended.1 3 2,
   c7_bounds_amended.2.1 4 2 (fun _ => 1) (by decide),
   c7_bounds_amended.2.2.1 4 2 (fun _ => 1) (by decide),
   c7_bounds_amended.2.2.2.1 3 2 3 (by decide) (by decide),
   c7_bounds_amended.2.2.2.2.1 3 2 (fun _ => 1) 3 (by norm_num) (by decide)
     (by decide),
   c7_bounds_amended.2.2.2.2.2 3 2 (fun _ => 1) 3 (by norm_num) (by decide)
     (by decide)⟩
